import Mathlib

/-!
# Verification of the FSST-Rust string compression core

A shallow embedding of the FSST-Rust sources (`src/core/mod.rs`,
`src/core/symbol.rs`, `src/core/counter.rs`, `src/core/symbol_table.rs`,
`src/core/codec.rs`, `src/lib.rs`) in Lean 4, together with theorems about
the embedded definitions.

Conventions of the embedding:
* Machine integers (`u8`, `u16`, `u32`, `u64`, `usize`) are modelled as `Nat`
  with explicit `% 2^w` where overflow can occur; where a value provably fits
  its width no reduction is written (noted at each site).
* The embedding fixes a little-endian machine (`target_endian = "little"`),
  so `std::mem::transmute` between `[u8; 8]` and `u64` is little-endian
  packing, and `Endian::get_native_endian()` is `Little` (byte tag `0`).
* Fixed-size Rust arrays are modelled as total functions `Nat → _`; callers
  only access in-bounds indices, mirroring the source.
* Rust operations that abort (vector indexing out of bounds, unwrap of a
  missing value) are modelled with `Option`: `none` is an abort.
* In release builds Rust shifts take the shift amount modulo the bit width;
  the embedding writes that `% 64` explicitly where the source can overflow.
-/

set_option maxRecDepth 40000

/-! ## Byte-level helpers -/

/-- Little-endian packing of a byte list into a natural number
(first list element is the least significant byte). -/
def packLE : List Nat → Nat
  | [] => 0
  | b :: rest => b + 256 * packLE rest

/-- The `n` little-endian bytes of `v` (`v % 256`, then `v / 256 % 256`, ...). -/
def toBytesLE : Nat → Nat → List Nat
  | 0, _ => []
  | n + 1, v => v % 256 :: toBytesLE n (v / 256)

/-- `src/core/mod.rs`: `bulk_load` copies up to 8 bytes into a zeroed
`[u8; 8]` and transmutes to `u64` (little-endian machine). -/
def bulk_load (s : List Nat) : Nat :=
  packLE (s.take 8)

/-- `src/core/mod.rs`: `bulk_load_u32`, same with a zeroed `[u8; 4]`. -/
def bulk_load_u32 (s : List Nat) : Nat :=
  packLE (s.take 4)

/-- `u64::trailing_zeros` (also used for `u32`), with explicit fuel;
`ctzFuel 64 0 = 64` just as `trailing_zeros` of `0u64` is `64`. -/
def ctzFuel : Nat → Nat → Nat
  | 0, _ => 0
  | fuel + 1, v => if v % 2 = 1 then 0 else 1 + ctzFuel fuel (v / 2)

/-- `u64::trailing_zeros`. -/
def ctz64 (v : Nat) : Nat := ctzFuel 64 v

/-- `u32::trailing_zeros`. -/
def ctz32 (v : Nat) : Nat := ctzFuel 32 v

theorem two_pow_8_succ (n : Nat) : (2 : Nat) ^ (8 * (n + 1)) = 256 * 2 ^ (8 * n) := by
  rw [show 8 * (n + 1) = 8 + 8 * n by ring, Nat.pow_add]

theorem toBytesLE_mod (n v : Nat) : toBytesLE n (v % 2 ^ (8 * n)) = toBytesLE n v := by
  induction n generalizing v with
  | zero => rfl
  | succ n ih =>
    have hmod : v % 2 ^ (8 * (n + 1)) % 256 = v % 256 := by
      rw [two_pow_8_succ]; exact Nat.mod_mod_of_dvd v ⟨2 ^ (8 * n), rfl⟩
    have hdiv : v % 2 ^ (8 * (n + 1)) / 256 = v / 256 % 2 ^ (8 * n) := by
      rw [two_pow_8_succ]; exact Nat.mod_mul_right_div_self v 256 _
    rw [toBytesLE, toBytesLE, hmod, hdiv, ih]

theorem packLE_toBytesLE (n v : Nat) : packLE (toBytesLE n v) = v % 2 ^ (8 * n) := by
  induction n generalizing v with
  | zero => simp [toBytesLE, packLE, Nat.mod_one]
  | succ n ih =>
    simp only [toBytesLE, packLE, ih]
    rw [two_pow_8_succ, Nat.mod_mul]

theorem toBytesLE_length (n v : Nat) : (toBytesLE n v).length = n := by
  induction n generalizing v with
  | zero => rfl
  | succ n ih => simp [toBytesLE, ih]

theorem toBytesLE_append (m n x y : Nat) (hx : x < 2 ^ (8 * m)) :
    toBytesLE (m + n) (x + 2 ^ (8 * m) * y) = toBytesLE m x ++ toBytesLE n y := by
  induction m generalizing x with
  | zero =>
    have : x = 0 := Nat.lt_one_iff.mp (by simpa using hx)
    simp [this, toBytesLE]
  | succ m ih =>
    have h256 : (0 : Nat) < 256 := by norm_num
    have h8 : 2 ^ (8 * (m + 1)) * y = 256 * (2 ^ (8 * m) * y) := by
      rw [two_pow_8_succ]; ring
    have hmod : (x + 2 ^ (8 * (m + 1)) * y) % 256 = x % 256 := by
      rw [h8]; exact Nat.add_mul_mod_self_left x 256 _
    have hdiv : (x + 2 ^ (8 * (m + 1)) * y) / 256 = x / 256 + 2 ^ (8 * m) * y := by
      rw [h8]; exact Nat.add_mul_div_left x _ h256
    have hxd : x / 256 < 2 ^ (8 * m) := by
      rw [Nat.div_lt_iff_lt_mul h256, Nat.mul_comm]
      calc x < 2 ^ (8 * (m + 1)) := hx
        _ = 256 * 2 ^ (8 * m) := two_pow_8_succ m
    rw [show m + 1 + n = (m + n) + 1 by ring]
    rw [toBytesLE, hmod, hdiv, ih _ hxd, toBytesLE]
    simp

theorem toBytesLE_take (k n v : Nat) :
    (toBytesLE n v).take k = toBytesLE (min k n) v := by
  induction n generalizing k v with
  | zero => simp [toBytesLE]
  | succ n ih =>
    cases k with
    | zero => simp [toBytesLE]
    | succ k =>
      rw [toBytesLE, List.take_succ_cons, ih]
      rw [Nat.succ_min_succ, toBytesLE]

/-! ## Bitwise helper lemmas -/

theorem testBit_add_mul_two_pow (k x y i : Nat) (hx : x < 2 ^ k) :
    (x + 2 ^ k * y).testBit i = if i < k then x.testBit i else y.testBit (i - k) := by
  rcases Nat.lt_or_ge i k with h | h
  · have hdvd : (x + 2 ^ k * y) / 2 ^ i = x / 2 ^ i + 2 ^ (k - i) * y := by
      have : (2 : Nat) ^ k = 2 ^ i * 2 ^ (k - i) := by
        rw [← Nat.pow_add, Nat.add_sub_cancel' (Nat.le_of_lt h)]
      rw [this, Nat.mul_assoc, Nat.add_mul_div_left _ _ (Nat.pos_pow_of_pos i (by norm_num))]
    have heven : (x / 2 ^ i + 2 ^ (k - i) * y) % 2 = x / 2 ^ i % 2 := by
      have hki : k - i = (k - i - 1) + 1 := by omega
      rw [hki, Nat.pow_succ, Nat.mul_comm (2 ^ (k - i - 1)) 2, Nat.mul_assoc]
      exact Nat.add_mul_mod_self_left _ 2 _
    simp only [Nat.testBit_to_div_mod, hdvd, heven, if_pos h]
  · have hdiv : (x + 2 ^ k * y) / 2 ^ i = y / 2 ^ (i - k) := by
      have h2 : (2 : Nat) ^ i = 2 ^ k * 2 ^ (i - k) := by
        rw [← Nat.pow_add, Nat.add_sub_cancel' h]
      rw [h2, ← Nat.div_div_eq_div_mul,
        Nat.add_mul_div_left _ _ (Nat.pos_pow_of_pos k (by norm_num)),
        Nat.div_eq_of_lt hx, Nat.zero_add]
    simp only [Nat.testBit_to_div_mod, hdiv, if_neg (Nat.not_lt.mpr h)]

theorem lor_add_mul_two_pow (k x y : Nat) (hx : x < 2 ^ k) :
    x ||| 2 ^ k * y = x + 2 ^ k * y := by
  apply Nat.eq_of_testBit_eq
  intro i
  rw [Nat.testBit_lor, testBit_add_mul_two_pow k x y i hx]
  have hsh : (2 ^ k * y).testBit i = (decide (i ≥ k) && y.testBit (i - k)) := by
    rw [Nat.mul_comm, ← Nat.shiftLeft_eq, Nat.testBit_shiftLeft]
  rcases Nat.lt_or_ge i k with h | h
  · rw [hsh, if_pos h]
    simp [Nat.not_le.mpr h]
  · rw [hsh, if_neg (Nat.not_lt.mpr h)]
    have hx0 : x.testBit i = false :=
      Nat.testBit_eq_false_of_lt (Nat.lt_of_lt_of_le hx (Nat.pow_le_pow_right (by norm_num) h))
    rw [hx0, decide_eq_true h]
    simp

theorem and_255 (x : Nat) : x &&& 255 = x % 256 := by
  have := Nat.and_pow_two_sub_one_eq_mod x 8
  norm_num at this
  exact this

theorem and_511 (x : Nat) : x &&& 511 = x % 512 := by
  have := Nat.and_pow_two_sub_one_eq_mod x 9
  norm_num at this
  exact this

theorem and_65535 (x : Nat) : x &&& 65535 = x % 65536 := by
  have := Nat.and_pow_two_sub_one_eq_mod x 16
  norm_num at this
  exact this

theorem and_15 (x : Nat) : x &&& 15 = x % 16 := by
  have := Nat.and_pow_two_sub_one_eq_mod x 4
  norm_num at this
  exact this

theorem and_u64max (x : Nat) : x &&& 0xffffffffffffffff = x % 2 ^ 64 := by
  have := Nat.and_pow_two_sub_one_eq_mod x 64
  norm_num at this
  exact this

theorem mod_two_pow_lor (x y k : Nat) : (x ||| y) % 2 ^ k = x % 2 ^ k ||| y % 2 ^ k := by
  apply Nat.eq_of_testBit_eq
  intro i
  simp only [Nat.testBit_mod_two_pow, Nat.testBit_lor]
  cases h : decide (i < k) <;> simp

namespace FSST

/-! ## Constants from `src/core/mod.rs` -/

def U64_SIZE : Nat := 8

def CODE_MAX : Nat := 512

def CODE_MASK : Nat := 511

def CODE_BASE : Nat := 256

def CODE_ESCAPE : Nat := 255

def LEN_BITS : Nat := 12

def HASH_SHIFT : Nat := 15

def HASH_PRIME : Nat := 2971215073

/-- `is_escape_code(code) = code < CODE_BASE`. -/
def is_escape_code (code : Nat) : Bool := code < CODE_BASE

/-- `fsst_hash(v)`: `prime = v * HASH_PRIME` on `usize` (64-bit, hence the
explicit `% 2^64`), then `prime ^ (prime >> HASH_SHIFT)`. -/
def fsst_hash (v : Nat) : Nat :=
  let prime := v * HASH_PRIME % 2 ^ 64
  prime ^^^ (prime >>> HASH_SHIFT)

/-! ## `src/core/symbol.rs` -/

/-- A symbol: `num` is the `u64` holding up to 8 bytes (little-endian), `icl`
packs (length, code, ignored-bits) as `compute_icl` does. -/
structure Symbol where
  num : Nat
  icl : Nat
deriving DecidableEq

namespace Symbol

def MAX_LEN : Nat := U64_SIZE

/-- `FREE_ICL = (15 << 28) | (CODE_MASK << 16)`. -/
def FREE_ICL : Nat := (15 <<< 28) ||| (511 <<< 16)

/-- `compute_icl(code, len) = (len << 28) | (code << 16) | ((8 - len) * 8)` on
`u32`; no overflow for the reachable `len ≤ 15`, `code < 4096`, and `8 - len`
is truncated subtraction exactly as on `Nat`. -/
def compute_icl (code len : Nat) : Nat :=
  (len <<< 28) ||| (code <<< 16) ||| ((8 - len) * 8)

/-- `from_str_bytes`: truncate to 8 bytes, zero-pad, pack little-endian. -/
def from_str_bytes (bytes : List Nat) : Symbol :=
  let len := min bytes.length MAX_LEN
  { num := bulk_load bytes, icl := compute_icl CODE_MASK len }

def from_byte_code (b code : Nat) : Symbol :=
  { num := b, icl := compute_icl code 1 }

def free : Symbol := { num := 0, icl := FREE_ICL }

def length (s : Symbol) : Nat := s.icl >>> 28

def code (s : Symbol) : Nat := (s.icl >>> 16) &&& 511

def set_code_len (s : Symbol) (code len : Nat) : Symbol :=
  { s with icl := compute_icl code len }

/-- `Symbol::reset` (used to free a hash-table slot). -/
def resetSym (_s : Symbol) : Symbol := { num := 0, icl := FREE_ICL }

def taken (s : Symbol) : Bool := s.icl < FREE_ICL

/-- The method `prefix_match` of `Symbol`:
`self.icl >= rhs.icl && rhs.num == self.num & (u64::MAX >> (rhs.icl as u8))`;
the `as u8` truncation is `% 256`. For every reachable symbol the low byte of
`icl` is `(8 - len) * 8 ≤ 56`, so the `u64` shift cannot overflow. -/
def prefMatch (self rhs : Symbol) : Bool :=
  rhs.icl ≤ self.icl && rhs.num == self.num &&& (0xffffffffffffffff >>> (rhs.icl % 256))

def first (s : Symbol) : Nat := s.num &&& 0xff

def first2 (s : Symbol) : Nat := s.num &&& 0xffff

def hash (s : Symbol) : Nat := fsst_hash (s.num &&& 0xffffff)

/-- `impl Add for Symbol`: `num = (rhs.num << (8 * this_len)) | self.num` on
`u64`. In a release build an overflowing shift amount is taken `% 64` (it
overflows exactly when `this_len = 8`), and the shift result is truncated to
64 bits. -/
def add (a rhs : Symbol) : Symbol :=
  let this_len := a.length
  let concat_len := min (this_len + rhs.length) MAX_LEN
  { num := (rhs.num <<< (8 * this_len % 64)) % 2 ^ 64 ||| a.num,
    icl := compute_icl CODE_MASK concat_len }

/-- `impl PartialEq for Symbol`: equality compares `(num, length)` (the code
bits of `icl` are ignored); this is also the `HashMap` key equality. -/
def symEq (a b : Symbol) : Bool := a.num == b.num && a.length == b.length

end Symbol

theorem compute_icl_eq (c len : Nat) (hc : c < 4096) (hl : len ≤ 15) :
    Symbol.compute_icl c len = len * 2 ^ 28 + c * 2 ^ 16 + (8 - len) * 8 := by
  unfold Symbol.compute_icl
  rw [Nat.shiftLeft_eq, Nat.shiftLeft_eq]
  have e1 : len * 2 ^ 28 ||| c * 2 ^ 16 = c * 2 ^ 16 + 2 ^ 28 * len := by
    rw [Nat.lor_comm, Nat.mul_comm len]
    exact lor_add_mul_two_pow 28 (c * 2 ^ 16) len (by nlinarith)
  rw [e1]
  have e2 : c * 2 ^ 16 + 2 ^ 28 * len = 2 ^ 16 * (c + 2 ^ 12 * len) := by ring
  rw [e2, Nat.lor_comm]
  rw [lor_add_mul_two_pow 16 ((8 - len) * 8) (c + 2 ^ 12 * len) (by omega)]
  ring

theorem compute_icl_len (c len : Nat) (hc : c < 4096) (hl : len ≤ 15) :
    Symbol.compute_icl c len >>> 28 = len := by
  rw [compute_icl_eq c len hc hl, Nat.shiftRight_eq_div_pow]
  have h : len * 2 ^ 28 + c * 2 ^ 16 + (8 - len) * 8
      = (c * 2 ^ 16 + (8 - len) * 8) + 2 ^ 28 * len := by ring
  rw [h, Nat.add_mul_div_left _ _ (by norm_num : (0 : Nat) < 2 ^ 28)]
  have hc16 : c * 2 ^ 16 ≤ 4095 * 2 ^ 16 := Nat.mul_le_mul_right _ (by omega)
  have hr : (c * 2 ^ 16 + (8 - len) * 8) / 2 ^ 28 = 0 :=
    Nat.div_eq_of_lt (by norm_num at hc16 ⊢; omega)
  omega

theorem compute_icl_code (c len : Nat) (hc : c < 512) (hl : len ≤ 15) :
    Symbol.compute_icl c len >>> 16 &&& 511 = c := by
  rw [compute_icl_eq c len (by omega) hl, Nat.shiftRight_eq_div_pow]
  have h : len * 2 ^ 28 + c * 2 ^ 16 + (8 - len) * 8
      = (8 - len) * 8 + 2 ^ 16 * (c + 2 ^ 12 * len) := by ring
  rw [h, Nat.add_mul_div_left _ _ (by norm_num : (0 : Nat) < 2 ^ 16)]
  have hr : (8 - len) * 8 / 2 ^ 16 = 0 := Nat.div_eq_of_lt (by omega)
  rw [hr, Nat.zero_add, and_511]
  have h2 : c + 2 ^ 12 * len = c + 512 * (8 * len) := by ring
  rw [h2, Nat.add_mul_mod_self_left, Nat.mod_eq_of_lt hc]

/-- Mirrors the repository's `test_symbol_add` unit test. -/
example :
    (Symbol.from_str_bytes [49, 50, 51, 52]).add (Symbol.from_str_bytes [53, 54, 55])
      = Symbol.from_str_bytes [49, 50, 51, 52, 53, 54, 55]
    ∧ (Symbol.from_str_bytes [49, 50, 51, 52]).add (Symbol.from_str_bytes [53, 54, 55, 56, 57])
      = Symbol.from_str_bytes [49, 50, 51, 52, 53, 54, 55, 56] := by
  constructor <;> rfl

/-! ## Claim C9: symbol addition concatenates, truncated to 8 bytes -/

/-- C9 (counterexample): for `a` of length 8, `a + b` does not produce the
first 8 bytes of `bytes(a) ++ bytes(b)`. With `a` = eight `0x31` bytes and
`b = [0xFF]`, the overflowing shift (taken `% 64` in a release build) ORs
`b`'s bytes over `a`'s first byte: the result starts with `0xFF`, not `0x31`. -/
theorem C9_add_len8_counterexample :
    toBytesLE (((Symbol.from_str_bytes (List.replicate 8 49)).add
        (Symbol.from_str_bytes [255])).length)
      (((Symbol.from_str_bytes (List.replicate 8 49)).add
        (Symbol.from_str_bytes [255])).num)
    ≠ List.take 8
        (toBytesLE (Symbol.from_str_bytes (List.replicate 8 49)).length
            (Symbol.from_str_bytes (List.replicate 8 49)).num
          ++ toBytesLE (Symbol.from_str_bytes [255]).length
              (Symbol.from_str_bytes [255]).num) := by
  decide

/-- C9 (amended): for symbols `a` of length 1..7 and `b` of length 1..8 whose
`num` fields fit their lengths, `a + b` is the symbol whose bytes are the
bytes of `a` followed by the bytes of `b`, truncated to 8 bytes total, with
length `min (len a + len b) 8` and code `CODE_MASK = 511`. (For `len a = 8`
the claim fails, see the counterexample.) -/
theorem C9_symbol_add_concat (a b : Symbol) (la lb : Nat)
    (hla : a.length = la) (hlb : b.length = lb)
    (h1 : 1 ≤ la) (h7 : la ≤ 7) (hb1 : 1 ≤ lb) (hb8 : lb ≤ 8)
    (han : a.num < 2 ^ (8 * la)) (hbn : b.num < 2 ^ (8 * lb)) :
    toBytesLE ((a.add b).length) ((a.add b).num)
      = List.take 8 (toBytesLE la a.num ++ toBytesLE lb b.num)
    ∧ (a.add b).length = min (la + lb) 8
    ∧ (a.add b).code = 511 := by
  have hicl : (a.add b).icl = Symbol.compute_icl 511 (min (la + lb) 8) := by
    simp [Symbol.add, hla, hlb, Symbol.MAX_LEN, U64_SIZE, CODE_MASK]
  have hLle : min (la + lb) 8 ≤ 15 := by omega
  have hlen : (a.add b).length = min (la + lb) 8 := by
    rw [Symbol.length, hicl, compute_icl_len 511 _ (by norm_num) hLle]
  have hcode : (a.add b).code = 511 := by
    rw [Symbol.code, hicl, compute_icl_code 511 _ (by norm_num) hLle]
  refine ⟨?_, hlen, hcode⟩
  have hnum : (a.add b).num = (b.num <<< (8 * la % 64)) % 2 ^ 64 ||| a.num := by
    simp [Symbol.add, hla]
  have hsh : 8 * la % 64 = 8 * la := Nat.mod_eq_of_lt (by omega)
  have hlaL : la ≤ min (la + lb) 8 := by omega
  have h8L : 8 * min (la + lb) 8 ≤ 64 := by omega
  -- reduce the left side modulo 2 ^ (8 * L)
  rw [hlen, hnum, hsh, ← toBytesLE_mod, mod_two_pow_lor]
  have e1 : (b.num <<< (8 * la)) % 2 ^ 64 % 2 ^ (8 * min (la + lb) 8)
      = 2 ^ (8 * la) * (b.num % 2 ^ (8 * (min (la + lb) 8 - la))) := by
    rw [Nat.mod_mod_of_dvd _ (Nat.pow_dvd_pow 2 h8L), Nat.shiftLeft_eq, Nat.mul_comm]
    rw [show 8 * min (la + lb) 8 = 8 * la + 8 * (min (la + lb) 8 - la) by omega,
      Nat.pow_add]
    exact Nat.mul_mod_mul_left _ _ _
  have e2 : a.num % 2 ^ (8 * min (la + lb) 8) = a.num :=
    Nat.mod_eq_of_lt (Nat.lt_of_lt_of_le han (Nat.pow_le_pow_right (by norm_num) (by omega)))
  rw [e1, e2, Nat.lor_comm,
    lor_add_mul_two_pow (8 * la) a.num _ han]
  set d := min (la + lb) 8 - la with hd
  have hsplit : min (la + lb) 8 = la + d := by omega
  rw [hsplit, toBytesLE_append la d a.num _ han, toBytesLE_mod]
  -- now compute the right-hand side's take
  rw [List.take_append_eq_append_take, toBytesLE_length,
    List.take_of_length_le (by rw [toBytesLE_length]; omega), toBytesLE_take]
  have hdm : d = min (8 - la) lb := by omega
  rw [hdm]

/-- C9 (witness): the amended addition law at `a = [1,2,3]`, `b = [4,5]`. -/
theorem C9_symbol_add_concat_witness :
    toBytesLE (((Symbol.from_str_bytes [1, 2, 3]).add (Symbol.from_str_bytes [4, 5])).length)
        (((Symbol.from_str_bytes [1, 2, 3]).add (Symbol.from_str_bytes [4, 5])).num)
      = List.take 8 (toBytesLE 3 (Symbol.from_str_bytes [1, 2, 3]).num
          ++ toBytesLE 2 (Symbol.from_str_bytes [4, 5]).num)
    ∧ ((Symbol.from_str_bytes [1, 2, 3]).add (Symbol.from_str_bytes [4, 5])).length = min (3 + 2) 8
    ∧ ((Symbol.from_str_bytes [1, 2, 3]).add (Symbol.from_str_bytes [4, 5])).code = 511 :=
  C9_symbol_add_concat (Symbol.from_str_bytes [1, 2, 3]) (Symbol.from_str_bytes [4, 5]) 3 2
    (by decide) (by decide) (by decide) (by decide) (by decide) (by decide) (by decide) (by decide)

/-! ## `src/core/counter.rs` -/

/-- Consecutive array elements `f start, f (start+1), ...` (`count` of them);
used to model Rust slices of the counter arrays. -/
def sliceLen (f : Nat → Nat) (start : Nat) : Nat → List Nat
  | 0 => []
  | k + 1 => f start :: sliceLen f (start + 1) k

/-- The slice `f[start..stop]`. -/
def sliceF (f : Nat → Nat) (start stop : Nat) : List Nat :=
  sliceLen f start (stop - start)

/-- The two-level counters: two parallel 512-byte arrays for single-symbol
counts and 512×512 low bytes / 512×256 packed high nibbles for pair counts. -/
structure Counter where
  single_low : Nat → Nat
  single_high : Nat → Nat
  concat_low : Nat → Nat → Nat
  concat_high : Nat → Nat → Nat

namespace Counter

def ENTRY_SIZE : Nat := CODE_MAX

def new : Counter :=
  { single_low := fun _ => 0, single_high := fun _ => 0,
    concat_low := fun _ _ => 0, concat_high := fun _ _ => 0 }

/-- `inc_single`: if the low byte is zero, saturating-increment the high byte
(`checked_add(1)` on `u8` keeps the old value at 255); then wrapping-increment
the low byte. -/
def inc_single (c : Counter) (pos : Nat) : Counter :=
  let high' := if c.single_low pos = 0
    then fun i => if i = pos
      then (if c.single_high pos + 1 < 256 then c.single_high pos + 1 else c.single_high pos)
      else c.single_high i
    else c.single_high
  { c with
    single_high := high',
    single_low := fun i => if i = pos then (c.single_low pos + 1) % 256 else c.single_low i }

/-- `inc_concat`: nibble-packed 12-bit pair counter; the high-nibble increment
is `1 << ((pos2 & 1) << 2)` with `checked_add` on the whole byte. -/
def inc_concat (c : Counter) (pos1 pos2 : Nat) : Counter :=
  let pos_high := pos2 >>> 1
  let amt := 1 <<< ((pos2 &&& 1) <<< 2)
  let high' := if c.concat_low pos1 pos2 = 0
    then fun i j => if i = pos1 ∧ j = pos_high
      then (if c.concat_high pos1 pos_high + amt < 256 then c.concat_high pos1 pos_high + amt
            else c.concat_high pos1 pos_high)
      else c.concat_high i j
    else c.concat_high
  { c with
    concat_high := high',
    concat_low := fun i j => if i = pos1 ∧ j = pos2 then (c.concat_low pos1 pos2 + 1) % 256
      else c.concat_low i j }

/-- `get_single_and_forward`: returns the (u32) value and the advanced `pos`. -/
def get_single_and_forward (c : Counter) (pos : Nat) : Nat × Nat :=
  let high0 := bulk_load (sliceF c.single_high pos (min (pos + U64_SIZE) ENTRY_SIZE))
  let zero := if high0 > 0 then ctz64 high0 >>> 3 else 7
  let high1 := (high0 >>> (zero <<< 3)) &&& 0xff
  let pos' := pos + zero
  if pos' ≥ ENTRY_SIZE ∨ high1 = 0 then (0, pos')
  else
    let low := c.single_low pos'
    let high2 := if low > 0 then high1 - 1 else high1
    ((high2 <<< 8) ||| low, pos')

/-- `get_concat_and_forward`: returns the (u32) value and the advanced `pos2`. -/
def get_concat_and_forward (c : Counter) (pos1 pos2 : Nat) : Nat × Nat :=
  let start := pos2 >>> 1
  let stop := min (start + U64_SIZE) (ENTRY_SIZE >>> 1)
  let word := bulk_load (sliceF (c.concat_high pos1) start stop)
  let high0 := word >>> ((pos2 &&& 1) <<< 2)
  let zero := if high0 > 0 then ctz64 high0 >>> 2 else 15 - (pos2 &&& 1)
  let high1 := (high0 >>> (zero <<< 2)) &&& 0xf
  let pos2' := pos2 + zero
  if pos2' ≥ ENTRY_SIZE ∨ high1 = 0 then (0, pos2')
  else
    let low := c.concat_low pos1 pos2'
    let high2 := if low > 0 then high1 - 1 else high1
    ((high2 <<< 8) ||| low, pos2')

def backup_single (c : Counter) : (Nat → Nat) × (Nat → Nat) :=
  (c.single_low, c.single_high)

def restore_single (c : Counter) (buf : (Nat → Nat) × (Nat → Nat)) : Counter :=
  { c with single_low := buf.1, single_high := buf.2 }

/-- `reset` zeroes all four arrays. -/
def reset (_c : Counter) : Counter := new

end Counter

/-- `N` calls of `inc_single(pos)`. -/
def iterIncSingle (pos : Nat) : Nat → Counter → Counter
  | 0, c => c
  | n + 1, c => (iterIncSingle pos n c).inc_single pos

/-- `N` calls of `inc_concat(pos1, pos2)`. -/
def iterIncConcat (pos1 pos2 : Nat) : Nat → Counter → Counter
  | 0, c => c
  | n + 1, c => (iterIncConcat pos1 pos2 n c).inc_concat pos1 pos2

theorem packLE_replicate_zero (k : Nat) : packLE (List.replicate k 0) = 0 := by
  induction k with
  | zero => rfl
  | succ k ih => simp [List.replicate, packLE, ih]

theorem sliceLen_zero_of (f : Nat → Nat) (j : Nat) :
    ∀ s', (∀ i, s' ≤ i → f i = 0) → sliceLen f s' j = List.replicate j 0 := by
  induction j with
  | zero => intro s' _; rfl
  | succ j ih =>
    intro s' hz
    rw [sliceLen, hz s' (Nat.le_refl s'), ih (s' + 1) (fun i hi => hz i (by omega))]
    rfl

theorem bulk_load_slice_head (f : Nat → Nat) (start k : Nat) (h1 : 1 ≤ k)
    (hz : ∀ i, start < i → f i = 0) :
    bulk_load (sliceLen f start k) = f start := by
  obtain ⟨j, rfl⟩ : ∃ j, k = j + 1 := ⟨k - 1, by omega⟩
  rw [sliceLen, sliceLen_zero_of f j (start + 1) (fun i hi => hz i (by omega))]
  rw [bulk_load, List.take_cons, List.take_replicate, packLE, packLE_replicate_zero]
  all_goals omega

theorem ctzFuel_lt (k : Nat) : ∀ fuel v, k ≤ fuel → v % 2 ^ k ≠ 0 → ctzFuel fuel v < k := by
  induction k with
  | zero => intro fuel v _ hv; exact absurd (by rw [Nat.pow_zero]; exact Nat.mod_one v) hv
  | succ k ih =>
    intro fuel v hfk hv
    match fuel, hfk with
    | fuel + 1, hfk =>
      by_cases h2 : v % 2 = 1
      · simp [ctzFuel, h2]
      · have hveven : v = 2 * (v / 2) := by omega
        have hv2 : (v / 2) % 2 ^ k ≠ 0 := by
          intro h0
          apply hv
          rw [Nat.pow_succ, Nat.mul_comm (2 ^ k) 2, hveven, Nat.mul_mod_mul_left, h0,
            Nat.mul_zero]
        have := ih fuel (v / 2) (by omega) hv2
        simp only [ctzFuel, h2, if_false]
        omega

theorem shiftLeft8_lor (x low : Nat) (hlow : low < 256) :
    (x <<< 8) ||| low = 256 * x + low := by
  rw [Nat.shiftLeft_eq, Nat.lor_comm, show x * 2 ^ 8 = 2 ^ 8 * x by ring,
    lor_add_mul_two_pow 8 low x hlow]
  ring

theorem iterIncSingle_low (pos N : Nat) :
    ∀ i, (iterIncSingle pos N Counter.new).single_low i = if i = pos then N % 256 else 0 := by
  induction N with
  | zero => intro i; simp [iterIncSingle, Counter.new]
  | succ N ih =>
    intro i
    have hlowp : (iterIncSingle pos N Counter.new).single_low pos = N % 256 := by
      rw [ih pos]; simp
    simp only [iterIncSingle, Counter.inc_single]
    by_cases h : i = pos
    · subst h
      rw [if_pos rfl, if_pos rfl, hlowp]
      omega
    · rw [if_neg h, ih i, if_neg h, if_neg h]

theorem iterIncSingle_high (pos N : Nat) :
    ∀ i, (iterIncSingle pos N Counter.new).single_high i
      = if i = pos then min ((N + 255) / 256) 255 else 0 := by
  induction N with
  | zero => intro i; simp [iterIncSingle, Counter.new]
  | succ N ih =>
    intro i
    have hlowp : (iterIncSingle pos N Counter.new).single_low pos = N % 256 := by
      rw [iterIncSingle_low pos N pos]; simp
    have hhighp : (iterIncSingle pos N Counter.new).single_high pos
        = min ((N + 255) / 256) 255 := by
      rw [ih pos]; simp
    simp only [iterIncSingle, Counter.inc_single, ite_apply, hlowp]
    by_cases hz : N % 256 = 0
    · rw [if_pos hz]
      by_cases h : i = pos
      · subst h
        rw [if_pos rfl, if_pos rfl, hhighp]
        split <;> omega
      · rw [if_neg h, ih i, if_neg h, if_neg h]
    · rw [if_neg hz, ih i]
      by_cases h : i = pos
      · subst h
        rw [if_pos rfl, if_pos rfl]
        omega
      · rw [if_neg h, if_neg h]

theorem get_single_after (pos N : Nat) (hpos : pos < 512) (hN : 1 ≤ N) :
    (iterIncSingle pos N Counter.new).get_single_and_forward pos
      = (256 * (min ((N + 255) / 256) 255 - (if N % 256 = 0 then 0 else 1)) + N % 256,
        pos) := by
  set st := iterIncSingle pos N Counter.new with hst
  set m := min ((N + 255) / 256) 255 with hm
  have hm1 : 1 ≤ m := by omega
  have hm255 : m ≤ 255 := by omega
  have hhighp : st.single_high pos = m := by
    rw [hst, iterIncSingle_high pos N pos]; simp [hm]
  have hz : ∀ i, pos < i → st.single_high i = 0 := by
    intro i hi
    rw [hst, iterIncSingle_high pos N i, if_neg (by omega)]
  have hlowp : st.single_low pos = N % 256 := by
    rw [hst, iterIncSingle_low pos N pos]; simp
  have hk : 1 ≤ min (pos + U64_SIZE) Counter.ENTRY_SIZE - pos := by
    simp only [U64_SIZE, Counter.ENTRY_SIZE, CODE_MAX]
    omega
  have hbulk :
      bulk_load (sliceF st.single_high pos (min (pos + U64_SIZE) Counter.ENTRY_SIZE)) = m := by
    rw [sliceF, bulk_load_slice_head st.single_high pos _ hk hz, hhighp]
  have hctz : ctz64 m >>> 3 = 0 := by
    have hlt : ctz64 m < 8 := by
      apply ctzFuel_lt 8 64 m (by norm_num)
      rw [Nat.mod_eq_of_lt (by omega : m < 2 ^ 8)]
      omega
    rw [Nat.shiftRight_eq_div_pow]
    exact Nat.div_eq_of_lt (by norm_num at hlt ⊢; omega)
  simp only [Counter.get_single_and_forward, hbulk, hctz]
  rw [if_pos (by omega : m > 0)]
  simp only [Nat.add_zero, Nat.zero_shiftLeft, Nat.shiftRight_zero, and_255,
    Nat.mod_eq_of_lt (by omega : m < 256)]
  rw [if_neg (by simp only [Counter.ENTRY_SIZE, CODE_MAX]; omega : ¬ (pos ≥ Counter.ENTRY_SIZE ∨ m = 0))]
  simp only [hlowp]
  rw [shiftLeft8_lor _ _ (Nat.mod_lt N (by norm_num))]
  by_cases hzz : N % 256 = 0
  · rw [if_neg (by omega : ¬ 0 < N % 256), if_pos hzz, Nat.sub_zero]
  · rw [if_pos (by omega : 0 < N % 256), if_neg hzz]

theorem iterIncConcat_low (p1 p2 N : Nat) :
    ∀ i j, (iterIncConcat p1 p2 N Counter.new).concat_low i j
      = if i = p1 ∧ j = p2 then N % 256 else 0 := by
  induction N with
  | zero => intro i j; simp [iterIncConcat, Counter.new]
  | succ N ih =>
    intro i j
    have hlowp : (iterIncConcat p1 p2 N Counter.new).concat_low p1 p2 = N % 256 := by
      rw [ih p1 p2]; simp
    simp only [iterIncConcat, Counter.inc_concat]
    by_cases h : i = p1 ∧ j = p2
    · rw [if_pos h, if_pos h, hlowp]
      omega
    · rw [if_neg h, ih i j, if_neg h, if_neg h]

theorem iterIncConcat_high (p1 p2 : Nat) :
    ∀ N, N ≤ 3840 → ∀ i j, (iterIncConcat p1 p2 N Counter.new).concat_high i j
      = if i = p1 ∧ j = p2 >>> 1
        then (if p2 % 2 = 0 then (N + 255) / 256 else 16 * ((N + 255) / 256))
        else 0 := by
  intro N
  induction N with
  | zero =>
    intro _ i j
    simp only [iterIncConcat, Counter.new]
    norm_num
  | succ N ih =>
    intro hN i j
    have ihN := fun i j => ih (by omega) i j
    have hlowp : (iterIncConcat p1 p2 N Counter.new).concat_low p1 p2 = N % 256 := by
      rw [iterIncConcat_low p1 p2 N p1 p2]; simp
    have hhighp : (iterIncConcat p1 p2 N Counter.new).concat_high p1 (p2 >>> 1)
        = if p2 % 2 = 0 then (N + 255) / 256 else 16 * ((N + 255) / 256) := by
      rw [ihN p1 (p2 >>> 1)]; simp
    have hand1 : p2 &&& 1 = p2 % 2 := Nat.and_one_is_mod p2
    simp only [iterIncConcat, Counter.inc_concat, ite_apply, hlowp, hand1]
    by_cases hz : N % 256 = 0
    · rw [if_pos hz]
      by_cases h : i = p1 ∧ j = p2 >>> 1
      · rw [if_pos h, if_pos h, hhighp]
        by_cases hpar : p2 % 2 = 0
        · rw [if_pos hpar, if_pos hpar, hpar]
          rw [show (0 : Nat) <<< 2 = 0 by decide, show (1 : Nat) <<< 0 = 1 by decide]
          rw [if_pos (by omega : (N + 255) / 256 + 1 < 256)]
          omega
        · have hpar1 : p2 % 2 = 1 := by omega
          rw [if_neg hpar, if_neg hpar, hpar1]
          rw [show (1 : Nat) <<< 2 = 4 by decide, show (1 : Nat) <<< 4 = 16 by decide]
          rw [if_pos (by omega : 16 * ((N + 255) / 256) + 16 < 256)]
          omega
      · rw [if_neg h, ihN i j, if_neg h, if_neg h]
    · rw [if_neg hz, ihN i j]
      have hm : (N + 1 + 255) / 256 = (N + 255) / 256 := by omega
      rw [hm]

theorem get_concat_after (p1 p2 N : Nat) (hp2 : p2 < 512) (hN1 : 1 ≤ N) (hN : N ≤ 3840) :
    (iterIncConcat p1 p2 N Counter.new).get_concat_and_forward p1 p2
      = (256 * ((N + 255) / 256 - (if N % 256 = 0 then 0 else 1)) + N % 256, p2) := by
  set st := iterIncConcat p1 p2 N Counter.new with hst
  set m := (N + 255) / 256 with hm
  have hm1 : 1 ≤ m := by omega
  have hm15 : m ≤ 15 := by omega
  have hH : st.concat_high p1 (p2 >>> 1)
      = if p2 % 2 = 0 then m else 16 * m := by
    rw [hst, iterIncConcat_high p1 p2 N (by omega) p1 (p2 >>> 1)]; simp
  have hz : ∀ i, p2 >>> 1 < i → st.concat_high p1 i = 0 := by
    intro i hi
    rw [hst, iterIncConcat_high p1 p2 N (by omega) p1 i, if_neg (by omega)]
  have hlowp : st.concat_low p1 p2 = N % 256 := by
    rw [hst, iterIncConcat_low p1 p2 N p1 p2]; simp
  have hand1 : p2 &&& 1 = p2 % 2 := Nat.and_one_is_mod p2
  have hk : 1 ≤ min (p2 >>> 1 + U64_SIZE) (Counter.ENTRY_SIZE >>> 1) - p2 >>> 1 := by
    simp only [U64_SIZE, Counter.ENTRY_SIZE, CODE_MAX, Nat.shiftRight_eq_div_pow]
    omega
  have hbulk : bulk_load (sliceF (st.concat_high p1) (p2 >>> 1)
      (min (p2 >>> 1 + U64_SIZE) (Counter.ENTRY_SIZE >>> 1)))
      = if p2 % 2 = 0 then m else 16 * m := by
    rw [sliceF, bulk_load_slice_head (st.concat_high p1) (p2 >>> 1) _ hk hz, hH]
  have hhigh0 : (if p2 % 2 = 0 then m else 16 * m) >>> ((p2 % 2) <<< 2) = m := by
    by_cases hpar : p2 % 2 = 0
    · rw [if_pos hpar, hpar, show (0 : Nat) <<< 2 = 0 by decide, Nat.shiftRight_zero]
    · have hpar1 : p2 % 2 = 1 := by omega
      rw [if_neg hpar, hpar1, show (1 : Nat) <<< 2 = 4 by decide,
        Nat.shiftRight_eq_div_pow]
      omega
  have hctz : ctz64 m >>> 2 = 0 := by
    have hlt : ctz64 m < 4 := by
      apply ctzFuel_lt 4 64 m (by norm_num)
      rw [Nat.mod_eq_of_lt (by omega : m < 2 ^ 4)]
      omega
    rw [Nat.shiftRight_eq_div_pow]
    exact Nat.div_eq_of_lt (by norm_num at hlt ⊢; omega)
  simp only [Counter.get_concat_and_forward, hand1, hbulk, hhigh0, hctz]
  rw [if_pos (by omega : m > 0)]
  simp only [Nat.add_zero, Nat.zero_shiftLeft, Nat.shiftRight_zero, and_15,
    Nat.mod_eq_of_lt (by omega : m < 16)]
  rw [if_neg (by simp only [Counter.ENTRY_SIZE, CODE_MAX]; omega :
    ¬ (p2 ≥ Counter.ENTRY_SIZE ∨ m = 0))]
  simp only [hlowp]
  rw [shiftLeft8_lor _ _ (Nat.mod_lt N (by norm_num))]
  by_cases hzz : N % 256 = 0
  · rw [if_neg (by omega : ¬ 0 < N % 256), if_pos hzz, Nat.sub_zero]
  · rw [if_pos (by omega : 0 < N % 256), if_neg hzz]

/-! ## Claim C3: counter correctness and saturation -/

/-- C3 (counterexample): the 16-bit single counter does not return `N` for all
`N ≤ 65535`. The high byte saturates at 255 and is decremented once when the
low byte is nonzero, so after 65281 increments the reading is 65025. -/
theorem C3_counter_counterexample :
    (iterIncSingle 0 65281 Counter.new).get_single_and_forward 0 ≠ (65281, 0) := by
  rw [get_single_after 0 65281 (by norm_num) (by norm_num)]
  decide

/-- C3 (amended): after `N` calls of `inc_single(c)` on a fresh counter,
`get_single_and_forward` at `pos = c` returns exactly `N` for `N ≤ 65280`
(= 255·256, the true cap — not 65535) and leaves `pos` at `c`; for
`N > 65280` it returns the saturated reading `65280` (when `256 ∣ N`) or
`65024 + N % 256`, never exceeding `65280`. After `N` calls of
`inc_concat(c1, c2)`, `get_concat_and_forward` returns exactly `N` for
`N ≤ 3840` (= 15·256, the true cap — not 4095). -/
theorem C3_counter_saturation :
    (∀ c N, c < 512 → 1 ≤ N → N ≤ 65280 →
      (iterIncSingle c N Counter.new).get_single_and_forward c = (N, c))
    ∧ (∀ c N, c < 512 → 65280 < N →
      (iterIncSingle c N Counter.new).get_single_and_forward c
        = ((if N % 256 = 0 then 65280 else 65024 + N % 256), c))
    ∧ (∀ c1 c2 N, c2 < 512 → 1 ≤ N → N ≤ 3840 →
      (iterIncConcat c1 c2 N Counter.new).get_concat_and_forward c1 c2 = (N, c2)) := by
  refine ⟨?_, ?_, ?_⟩
  · intro c N hc h1 h2
    rw [get_single_after c N hc h1]
    have hv : 256 * (min ((N + 255) / 256) 255 - if N % 256 = 0 then 0 else 1) + N % 256
        = N := by
      by_cases hz : N % 256 = 0
      · rw [if_pos hz]; omega
      · rw [if_neg hz]; omega
    rw [hv]
  · intro c N hc h2
    rw [get_single_after c N hc (by omega)]
    have hv : 256 * (min ((N + 255) / 256) 255 - if N % 256 = 0 then 0 else 1) + N % 256
        = (if N % 256 = 0 then 65280 else 65024 + N % 256) := by
      by_cases hz : N % 256 = 0
      · rw [if_pos hz, if_pos hz]; omega
      · rw [if_neg hz, if_neg hz]; omega
    rw [hv]
  · intro c1 c2 N hc2 h1 h2
    rw [get_concat_after c1 c2 N hc2 h1 h2]
    have hv : 256 * ((N + 255) / 256 - if N % 256 = 0 then 0 else 1) + N % 256 = N := by
      by_cases hz : N % 256 = 0
      · rw [if_pos hz]; omega
      · rw [if_neg hz]; omega
    rw [hv]

/-- C3 (witness): the amended counter law at concrete counts. -/
theorem C3_counter_saturation_witness :
    (iterIncSingle 3 300 Counter.new).get_single_and_forward 3 = (300, 3)
    ∧ (iterIncSingle 4 65300 Counter.new).get_single_and_forward 4
      = ((if 65300 % 256 = 0 then 65280 else 65024 + 65300 % 256), 4)
    ∧ (iterIncConcat 5 7 300 Counter.new).get_concat_and_forward 5 7 = (300, 7) :=
  ⟨C3_counter_saturation.1 3 300 (by decide) (by decide) (by decide),
   C3_counter_saturation.2.1 4 65300 (by decide) (by decide),
   C3_counter_saturation.2.2 5 7 300 (by decide) (by decide) (by decide)⟩

/-! ## Claim C7: candidate sorting in `make_table` -/

/-- Rust `Ord::cmp` on unsigned integers. -/
def cmpNat (x y : Nat) : Ordering :=
  if x < y then .lt else if x = y then .eq else .gt

/-- The closure passed to `sorted_vec.sort_by` in `make_table`:
`if a.1 == b.1 { b.0.cmp(&a.0) } else { a.1.cmp(&b.1) }` on `(Symbol, gain)`
pairs; `Symbol`s order by `num`. -/
def candCmp (a b : Symbol × Nat) : Ordering :=
  if a.2 = b.2 then cmpNat b.1.num a.1.num else cmpNat a.2 b.2

/-- Stable insertion: `x` goes before the first `y` with `cmp x y = Less`,
so elements that compare equal keep their original order — the guarantee of
Rust's stable `sort_by`. -/
def insertBy (cmp : α → α → Ordering) (x : α) : List α → List α
  | [] => [x]
  | y :: ys => if cmp x y = Ordering.lt then x :: y :: ys else y :: insertBy cmp x ys

/-- A stable comparator sort modelling `Vec::sort_by`. -/
def sortBy (cmp : α → α → Ordering) (l : List α) : List α :=
  l.foldl (fun acc x => insertBy cmp x acc) []

/-- The order `make_table`'s comparator sorts into: ascending gain, and on
equal gain descending symbol value. -/
def candLE (a b : Symbol × Nat) : Prop :=
  a.2 < b.2 ∨ (a.2 = b.2 ∧ b.1.num ≤ a.1.num)

theorem cmpNat_lt_iff {x y : Nat} : cmpNat x y = Ordering.lt ↔ x < y := by
  unfold cmpNat
  split_ifs with h1 h2 <;> simp_all

theorem candLE_of_cmp_lt {a b : Symbol × Nat} (h : candCmp a b = Ordering.lt) : candLE a b := by
  unfold candCmp at h
  unfold candLE
  by_cases hg : a.2 = b.2
  · rw [if_pos hg] at h
    have := cmpNat_lt_iff.mp h
    omega
  · rw [if_neg hg] at h
    have := cmpNat_lt_iff.mp h
    omega

theorem candLE_of_cmp_not_lt {a b : Symbol × Nat} (h : candCmp a b ≠ Ordering.lt) :
    candLE b a := by
  unfold candCmp at h
  unfold candLE
  by_cases hg : a.2 = b.2
  · rw [if_pos hg] at h
    have : ¬ (b.1.num < a.1.num) := fun hx => h (cmpNat_lt_iff.mpr hx)
    omega
  · rw [if_neg hg] at h
    have : ¬ (a.2 < b.2) := fun hx => h (cmpNat_lt_iff.mpr hx)
    omega

theorem candLE_trans {a b c : Symbol × Nat} (h1 : candLE a b) (h2 : candLE b c) :
    candLE a c := by
  unfold candLE at h1 h2 ⊢
  omega

theorem mem_insertBy (cmp : α → α → Ordering) (x w : α) :
    ∀ l, w ∈ insertBy cmp x l → w = x ∨ w ∈ l := by
  intro l
  induction l with
  | nil =>
    intro h
    simp [insertBy] at h
    exact Or.inl h
  | cons y ys ih =>
    intro h
    unfold insertBy at h
    split at h
    · rcases List.mem_cons.mp h with h1 | h1
      · exact Or.inl h1
      · exact Or.inr h1
    · rcases List.mem_cons.mp h with h1 | h1
      · exact Or.inr (List.mem_cons.mpr (Or.inl h1))
      · rcases ih h1 with h2 | h2
        · exact Or.inl h2
        · exact Or.inr (List.mem_cons.mpr (Or.inr h2))

theorem pairwise_insertBy (x : Symbol × Nat) :
    ∀ l, List.Pairwise candLE l → List.Pairwise candLE (insertBy candCmp x l) := by
  intro l
  induction l with
  | nil => intro _; simp [insertBy]
  | cons y ys ih =>
    intro hl
    rw [List.pairwise_cons] at hl
    unfold insertBy
    split
    · rename_i hlt
      rw [List.pairwise_cons]
      constructor
      · intro w hw
        rcases List.mem_cons.mp hw with h | h
        · subst h; exact candLE_of_cmp_lt hlt
        · exact candLE_trans (candLE_of_cmp_lt hlt) (hl.1 w h)
      · rw [List.pairwise_cons]
        exact hl
    · rename_i hnlt
      rw [List.pairwise_cons]
      constructor
      · intro w hw
        rcases mem_insertBy candCmp x w ys hw with h | h
        · subst h; exact candLE_of_cmp_not_lt hnlt
        · exact hl.1 w h
      · exact ih hl.2

/-- C7 (amended): the sorted candidate vector is ordered by ascending gain,
and on equal gain by *descending* symbol value — so among gain ties the
candidate with the *larger* value sits earlier and the one with the *smaller*
value is at the end of the vector, popped and added to the table first. -/
theorem C7_make_table_sort_order (l : List (Symbol × Nat)) :
    List.Pairwise candLE (sortBy candCmp l) := by
  unfold sortBy
  have haux : ∀ (l' : List (Symbol × Nat)) (acc : List (Symbol × Nat)),
      List.Pairwise candLE acc →
      List.Pairwise candLE (l'.foldl (fun acc x => insertBy candCmp x acc) acc) := by
    intro l'
    induction l' with
    | nil => intro acc h; exact h
    | cons x xs ih =>
      intro acc h
      exact ih (insertBy candCmp x acc) (pairwise_insertBy x acc h)
  exact haux l [] List.Pairwise.nil

/-- C7 (counterexample): two candidates with equal gain 10 and values 1 < 2.
After sorting, the *last* element of the vector — the one `make_table` pops
and adds first — is the candidate with the *smaller* value, contradicting
the claim that the larger value is placed later and popped first. -/
theorem C7_tie_order_counterexample :
    (sortBy candCmp [(Symbol.from_byte_code 1 511, 10), (Symbol.from_byte_code 2 511, 10)]).getLast?
      = some (Symbol.from_byte_code 1 511, 10)
    ∧ (Symbol.from_byte_code 1 511).num < (Symbol.from_byte_code 2 511).num := by
  constructor
  · rfl
  · decide

/-! ## Claim C8: the word-parallel escape mask -/

/-- The escape-detection mask computed in `Decoder::decode`:
`(w & 0x80808080) & ((((!w) & 0x7F7F7F7F) + 0x7F7F7F7F) ^ 0x80808080)`;
`!w` on `u32` is `0xFFFFFFFF ^ w`. -/
def escape_mask (w : Nat) : Nat :=
  (w &&& 0x80808080) &&& ((((0xFFFFFFFF ^^^ w) &&& 0x7F7F7F7F) + 0x7F7F7F7F) ^^^ 0x80808080)

/-- The same computation restricted to one byte lane. -/
def escByte (x : Nat) : Nat :=
  (x &&& 0x80) &&& ((((0xFF ^^^ x) &&& 0x7F) + 0x7F) ^^^ 0x80)

theorem digit_land (x y X Y : Nat) (hx : x < 256) (hy : y < 256) :
    (x + 256 * X) &&& (y + 256 * Y) = (x &&& y) + 256 * (X &&& Y) := by
  have h8 : (256 : Nat) = 2 ^ 8 := by norm_num
  rw [h8] at hx hy ⊢
  apply Nat.eq_of_testBit_eq
  intro i
  rw [Nat.testBit_land, testBit_add_mul_two_pow 8 _ _ i hx,
    testBit_add_mul_two_pow 8 _ _ i hy,
    testBit_add_mul_two_pow 8 _ _ i (Nat.and_lt_two_pow x hy)]
  by_cases h : i < 8
  · rw [if_pos h, if_pos h, if_pos h, Nat.testBit_land]
  · rw [if_neg h, if_neg h, if_neg h, Nat.testBit_land]

theorem digit_xor (x y X Y : Nat) (hx : x < 256) (hy : y < 256) :
    (x + 256 * X) ^^^ (y + 256 * Y) = (x ^^^ y) + 256 * (X ^^^ Y) := by
  have h8 : (256 : Nat) = 2 ^ 8 := by norm_num
  rw [h8] at hx hy ⊢
  apply Nat.eq_of_testBit_eq
  intro i
  rw [Nat.testBit_xor, testBit_add_mul_two_pow 8 _ _ i hx,
    testBit_add_mul_two_pow 8 _ _ i hy,
    testBit_add_mul_two_pow 8 _ _ i (Nat.xor_lt_two_pow hx hy)]
  by_cases h : i < 8
  · rw [if_pos h, if_pos h, if_pos h, Nat.testBit_xor]
  · rw [if_neg h, if_neg h, if_neg h, Nat.testBit_xor]

theorem escByte_lt (b : Nat) : escByte b < 256 := by
  have h1 : escByte b ≤ b &&& 128 := Nat.and_le_left
  have h2 : b &&& 128 ≤ 128 := Nat.and_le_right
  omega

/-- One byte lane of the mask: the high bit is set iff the byte is `0xFF`. -/
theorem escByte_spec : ∀ b, b < 256 → escByte b = if b = 255 then 128 else 0 := by
  decide

theorem escape_mask_bytes (b0 b1 b2 b3 : Nat)
    (h0 : b0 < 256) (h1 : b1 < 256) (h2 : b2 < 256) (h3 : b3 < 256) :
    escape_mask (b0 + 256 * (b1 + 256 * (b2 + 256 * b3)))
      = escByte b0 + 256 * (escByte b1 + 256 * (escByte b2 + 256 * escByte b3)) := by
  unfold escape_mask
  have e255 : (0xFFFFFFFF : Nat) = 255 + 256 * (255 + 256 * (255 + 256 * 255)) := by norm_num
  have e7f : (0x7F7F7F7F : Nat) = 127 + 256 * (127 + 256 * (127 + 256 * 127)) := by norm_num
  have e80 : (0x80808080 : Nat) = 128 + 256 * (128 + 256 * (128 + 256 * 128)) := by norm_num
  rw [e255, e7f, e80]
  -- complement: 0xFFFFFFFF ^ w, byte-wise
  rw [digit_xor 255 b0 _ _ (by norm_num) h0, digit_xor 255 b1 _ _ (by norm_num) h1,
    digit_xor 255 b2 _ _ (by norm_num) h2]
  have hx0 : 255 ^^^ b0 < 256 := Nat.xor_lt_two_pow (n := 8) (by norm_num) h0
  have hx1 : 255 ^^^ b1 < 256 := Nat.xor_lt_two_pow (n := 8) (by norm_num) h1
  have hx2 : 255 ^^^ b2 < 256 := Nat.xor_lt_two_pow (n := 8) (by norm_num) h2
  -- mask to 7 bits, byte-wise
  rw [digit_land _ 127 _ _ hx0 (by norm_num), digit_land _ 127 _ _ hx1 (by norm_num),
    digit_land _ 127 _ _ hx2 (by norm_num)]
  -- the add has no carries between bytes: each byte sum is < 256
  have ha0 : (255 ^^^ b0) &&& 127 ≤ 127 := Nat.and_le_right
  have ha1 : (255 ^^^ b1) &&& 127 ≤ 127 := Nat.and_le_right
  have ha2 : (255 ^^^ b2) &&& 127 ≤ 127 := Nat.and_le_right
  have ha3 : (255 ^^^ b3) &&& 127 ≤ 127 := Nat.and_le_right
  have hadd : (((255 ^^^ b0) &&& 127) + 256 * (((255 ^^^ b1) &&& 127)
        + 256 * (((255 ^^^ b2) &&& 127) + 256 * ((255 ^^^ b3) &&& 127))))
        + (127 + 256 * (127 + 256 * (127 + 256 * 127)))
      = (((255 ^^^ b0) &&& 127) + 127) + 256 * ((((255 ^^^ b1) &&& 127) + 127)
        + 256 * ((((255 ^^^ b2) &&& 127) + 127) + 256 * (((255 ^^^ b3) &&& 127) + 127))) := by
    ring
  rw [hadd]
  -- xor with 0x80, byte-wise
  rw [digit_xor _ 128 _ _ (by omega) (by norm_num), digit_xor _ 128 _ _ (by omega) (by norm_num),
    digit_xor _ 128 _ _ (by omega) (by norm_num)]
  -- w & 0x80808080, byte-wise
  rw [digit_land b0 128 _ _ h0 (by norm_num), digit_land b1 128 _ _ h1 (by norm_num),
    digit_land b2 128 _ _ h2 (by norm_num)]
  -- final and, byte-wise
  have hb0 : b0 &&& 128 < 256 := by have := Nat.and_le_right (n := b0) (m := 128); omega
  have hb1 : b1 &&& 128 < 256 := by have := Nat.and_le_right (n := b1) (m := 128); omega
  have hb2 : b2 &&& 128 < 256 := by have := Nat.and_le_right (n := b2) (m := 128); omega
  rw [digit_land _ _ _ _ hb0 (Nat.xor_lt_two_pow (n := 8) (by omega) (by norm_num)),
    digit_land _ _ _ _ hb1 (Nat.xor_lt_two_pow (n := 8) (by omega) (by norm_num)),
    digit_land _ _ _ _ hb2 (Nat.xor_lt_two_pow (n := 8) (by omega) (by norm_num))]
  rfl

theorem testBit_byte_low (E X k : Nat) (hE : E < 256) (hk : k < 8) :
    (E + 256 * X).testBit k = E.testBit k := by
  have h8 : (256 : Nat) = 2 ^ 8 := by norm_num
  rw [h8, testBit_add_mul_two_pow 8 E X k (h8 ▸ hE), if_pos hk]

theorem testBit_byte_skip (E X k : Nat) (hE : E < 256) :
    (E + 256 * X).testBit (8 + k) = X.testBit k := by
  have h8 : (256 : Nat) = 2 ^ 8 := by norm_num
  rw [h8, testBit_add_mul_two_pow 8 E X (8 + k) (h8 ▸ hE), if_neg (by omega)]
  congr 1
  omega

theorem testBit7_escByte (b : Nat) (hb : b < 256) :
    ((escByte b).testBit 7 = true) ↔ b = 255 := by
  rw [escByte_spec b hb]
  by_cases h : b = 255
  · rw [if_pos h]
    exact iff_of_true (by decide) h
  · rw [if_neg h]
    exact iff_of_false (by decide) h

/-- C8 (confirmed): for a 32-bit word loaded from four input bytes, the
escape mask has the high bit of byte lane `i` set iff that byte is `0xFF`. -/
theorem C8_escape_mask_detects_ff (b0 b1 b2 b3 i : Nat)
    (h0 : b0 < 256) (h1 : b1 < 256) (h2 : b2 < 256) (h3 : b3 < 256) (hi : i < 4) :
    ((escape_mask (bulk_load_u32 [b0, b1, b2, b3])).testBit (8 * i + 7) = true
      ↔ (bulk_load_u32 [b0, b1, b2, b3] >>> (8 * i)) &&& 255 = 255) := by
  have hw : bulk_load_u32 [b0, b1, b2, b3] = b0 + 256 * (b1 + 256 * (b2 + 256 * b3)) := by
    simp [bulk_load_u32, packLE]
  rw [hw, escape_mask_bytes b0 b1 b2 b3 h0 h1 h2 h3]
  interval_cases i
  · rw [show (8 * 0 + 7) = 7 by norm_num,
      testBit_byte_low _ _ 7 (escByte_lt b0) (by norm_num), testBit7_escByte b0 h0,
      show (8 * 0) = 0 by norm_num, Nat.shiftRight_zero, and_255]
    have hW : (b0 + 256 * (b1 + 256 * (b2 + 256 * b3))) % 256 = b0 := by omega
    rw [hW]
  · rw [show (8 * 1 + 7) = 8 + 7 by norm_num,
      testBit_byte_skip _ _ 7 (escByte_lt b0),
      testBit_byte_low _ _ 7 (escByte_lt b1) (by norm_num), testBit7_escByte b1 h1,
      Nat.shiftRight_eq_div_pow, and_255]
    have hW : (b0 + 256 * (b1 + 256 * (b2 + 256 * b3))) / 2 ^ (8 * 1) % 256 = b1 := by
      norm_num
      omega
    rw [hW]
  · rw [show (8 * 2 + 7) = 8 + (8 + 7) by norm_num,
      testBit_byte_skip _ _ _ (escByte_lt b0),
      testBit_byte_skip _ _ 7 (escByte_lt b1),
      testBit_byte_low _ _ 7 (escByte_lt b2) (by norm_num), testBit7_escByte b2 h2,
      Nat.shiftRight_eq_div_pow, and_255]
    have hW : (b0 + 256 * (b1 + 256 * (b2 + 256 * b3))) / 2 ^ (8 * 2) % 256 = b2 := by
      norm_num
      omega
    rw [hW]
  · rw [show (8 * 3 + 7) = 8 + (8 + (8 + 7)) by norm_num,
      testBit_byte_skip _ _ _ (escByte_lt b0),
      testBit_byte_skip _ _ _ (escByte_lt b1),
      testBit_byte_skip _ _ 7 (escByte_lt b2), testBit7_escByte b3 h3,
      Nat.shiftRight_eq_div_pow, and_255]
    have hW : (b0 + 256 * (b1 + 256 * (b2 + 256 * b3))) / 2 ^ (8 * 3) % 256 = b3 := by
      norm_num
      omega
    rw [hW]

/-- C8 (witness): the escape-mask law at the concrete word `[65, 255, 0, 128]`,
lane 1. -/
theorem C8_escape_mask_detects_ff_witness :
    ((escape_mask (bulk_load_u32 [65, 255, 0, 128])).testBit (8 * 1 + 7) = true
      ↔ (bulk_load_u32 [65, 255, 0, 128] >>> (8 * 1)) &&& 255 = 255) :=
  C8_escape_mask_detects_ff 65 255 0 128 1 (by decide) (by decide) (by decide) (by decide)
    (by decide)

/-! ## `src/core/symbol_table.rs`: the perfect-hash symbol table -/

/-- The 512-slot codebook with byte / two-byte / hash lookup structures.
The fixed-size arrays are modelled as total functions. -/
structure PerfectHashSymbolTable where
  byte_codes : Nat → Nat
  short_codes : Nat → Nat
  hash_table : Nat → Symbol
  symbols : Nat → Symbol
  len_histo : Nat → Nat
  symbol_num : Nat
  finalized : Bool

namespace PerfectHashSymbolTable

def TABLE_SIZE : Nat := 4096

/-- `PerfectHashSymbolTable::new()`; the initialisation loops write each
index independently and are modelled pointwise. -/
def new : PerfectHashSymbolTable :=
  { byte_codes := fun i => (1 <<< LEN_BITS) ||| i
    short_codes := fun i => (1 <<< LEN_BITS) ||| (i &&& 0xff)
    hash_table := fun _ => Symbol.free
    symbols := fun i =>
      if i < CODE_BASE then Symbol.from_byte_code i ((1 <<< LEN_BITS) ||| i)
      else Symbol.from_byte_code 0 CODE_MASK
    len_histo := fun _ => 0
    symbol_num := 0
    finalized := false }

def hash_idx (hash_value : Nat) : Nat := hash_value &&& (TABLE_SIZE - 1)

/-- `hash_insert`: open addressing without probing — a taken slot rejects. -/
def hash_insert (t : PerfectHashSymbolTable) (s : Symbol) :
    Bool × PerfectHashSymbolTable :=
  let idx := hash_idx s.hash
  if (t.hash_table idx).taken then (false, t)
  else (true, { t with hash_table := fun i => if i = idx then s else t.hash_table i })

/-- `add`: assign code `256 + symbol_num`, install into the lookup structure
for the symbol's length; a hash collision rejects the add. The `u8`
increment of `len_histo` wraps (`% 256`) as in a release build. -/
def add (t : PerfectHashSymbolTable) (s0 : Symbol) :
    Bool × PerfectHashSymbolTable :=
  let len := s0.length
  let code := CODE_BASE + t.symbol_num
  let s := s0.set_code_len code len
  let inst : Option PerfectHashSymbolTable :=
    if len = 1 then
      some { t with byte_codes := fun i =>
        if i = s.first then code ||| (1 <<< LEN_BITS) else t.byte_codes i }
    else if len = 2 then
      some { t with short_codes := fun i =>
        if i = s.first2 then code ||| (2 <<< LEN_BITS) else t.short_codes i }
    else
      let r := t.hash_insert s
      if r.1 then some r.2 else none
  match inst with
  | none => (false, t)
  | some t1 =>
    (true, { t1 with
      symbols := fun i => if i = code then s else t1.symbols i
      symbol_num := t1.symbol_num + 1
      len_histo := fun i =>
        if i = len - 1 then (t1.len_histo (len - 1) + 1) % 256 else t1.len_histo i })

def get_symbol (t : PerfectHashSymbolTable) (code : Nat) : Symbol := t.symbols code

def find_longest_symbol_code (t : PerfectHashSymbolTable) (str_bytes : List Nat) : Nat :=
  let target_symbol := Symbol.from_str_bytes str_bytes
  let src_symbol := t.hash_table (hash_idx target_symbol.hash)
  if target_symbol.prefMatch src_symbol then
    src_symbol.code
  else if 2 ≤ target_symbol.length
      ∧ CODE_BASE ≤ t.short_codes target_symbol.first2 &&& CODE_MASK then
    t.short_codes target_symbol.first2 &&& CODE_MASK
  else
    t.byte_codes target_symbol.first &&& CODE_MASK

/-- `encode_for`: returns `(code as u8, consumed input bytes, emitted output
bytes)`. -/
def encode_for (t : PerfectHashSymbolTable) (target : Symbol) : Nat × Nat × Nat :=
  let src_symbol := t.hash_table (hash_idx target.hash)
  if target.prefMatch src_symbol then
    (src_symbol.code % 256, src_symbol.length, 1)
  else
    let code := t.short_codes target.first2
    let s_len := code >>> LEN_BITS
    let out_len := 1 + ((code &&& CODE_BASE) >>> 8)
    (code % 256, s_len, out_len)

def len (t : PerfectHashSymbolTable) : Nat := t.symbol_num

/-- One iteration of `clear`'s uninstall loop for learned code `i`. -/
def clearCode (t : PerfectHashSymbolTable) (i : Nat) : PerfectHashSymbolTable :=
  let s := t.get_symbol i
  if s.length = 1 then
    { t with byte_codes := fun j =>
      if j = s.first then (s.first &&& 0xff) ||| (1 <<< LEN_BITS) else t.byte_codes j }
  else if s.length = 2 then
    { t with short_codes := fun j =>
      if j = s.first2 then (s.first2 &&& 0xff) ||| (1 <<< LEN_BITS) else t.short_codes j }
  else
    { t with hash_table := fun j =>
      if j = hash_idx s.hash then Symbol.free else t.hash_table j }

/-- `clear`: uninstall every learned symbol, zero the histogram and count. -/
def clear (t : PerfectHashSymbolTable) : PerfectHashSymbolTable :=
  let t1 := (List.range t.symbol_num).foldl (fun acc k => acc.clearCode (CODE_BASE + k)) t
  { t1 with len_histo := fun _ => 0, symbol_num := 0 }

/-- `finalize`: renumber codes length-sorted into `0..symbol_num`, rewriting
all lookup structures. The running-sum loop mutating `rsum`, `new_codes` and
`symbols` is modelled as a fold; the later per-index rewriting loops are
modelled pointwise. -/
def finalize (t : PerfectHashSymbolTable) : PerfectHashSymbolTable :=
  let rsum0 : Nat → Nat := fun l => (List.range l).foldl (fun a j => a + t.len_histo j) 0
  let step := fun (st : (Nat → Nat) × (Nat → Nat) × (Nat → Symbol)) (k : Nat) =>
    let s := st.2.2 (CODE_BASE + k)
    let len := s.length
    let nc := st.1 (len - 1)
    ((fun l => if l = len - 1 then nc + 1 else st.1 l),
     (fun j => if j = k then nc else st.2.1 j),
     (fun j => if j = nc then s.set_code_len nc len else st.2.2 j))
  let fin := (List.range t.symbol_num).foldl step (rsum0, (fun _ => 0), t.symbols)
  let new_codes := fin.2.1
  let syms := fin.2.2
  let byte_codes' := fun i =>
    if CODE_BASE ≤ t.byte_codes i &&& CODE_MASK then
      new_codes (t.byte_codes i &&& 0xff) ||| (1 <<< LEN_BITS)
    else
      CODE_MASK ||| (1 <<< LEN_BITS)
  { t with
    symbols := syms
    byte_codes := byte_codes'
    short_codes := fun i =>
      if CODE_BASE ≤ t.short_codes i &&& CODE_MASK then
        new_codes (t.short_codes i &&& 0xff) ||| (t.short_codes i &&& (0xf <<< LEN_BITS))
      else
        byte_codes' (i &&& 0xff)
    hash_table := fun i =>
      if (t.hash_table i).taken then
        syms (new_codes ((t.hash_table i).code &&& 0xff))
      else
        t.hash_table i
    finalized := true }

/-- `dump`: endian tag (0 on this little-endian machine), the 8 histogram
bytes, then each symbol's bytes in code order, `length` bytes each. -/
def dump (t : PerfectHashSymbolTable) : List Nat :=
  0 :: sliceLen t.len_histo 0 8
    ++ (List.range t.symbol_num).foldr
        (fun i acc => toBytesLE (t.get_symbol i).length (t.get_symbol i).num ++ acc) []

end PerfectHashSymbolTable

/-! ## Claim C5: the `find_longest_symbol_code` fallback -/

/-- C5 (counterexample): after a single-byte symbol for byte 65 is added,
the final fallback of `find_longest_symbol_code` is reached (no hash match,
input shorter than 2) and returns that symbol's code 256 — greater than 255. -/
theorem C5_fallback_over_255_counterexample :
    Symbol.prefMatch (Symbol.from_str_bytes [65])
        (((PerfectHashSymbolTable.new.add (Symbol.from_str_bytes [65])).2).hash_table
          (PerfectHashSymbolTable.hash_idx (Symbol.from_str_bytes [65]).hash)) = false
    ∧ (Symbol.from_str_bytes [65]).length < 2
    ∧ ((PerfectHashSymbolTable.new.add (Symbol.from_str_bytes [65])).2).find_longest_symbol_code
        [65] = 256 := by
  refine ⟨by decide, by decide, by decide⟩

theorem from_str_bytes_icl_lt_free (s : List Nat) :
    (Symbol.from_str_bytes s).icl < Symbol.FREE_ICL := by
  have hicl : (Symbol.from_str_bytes s).icl
      = Symbol.compute_icl CODE_MASK (min s.length Symbol.MAX_LEN) := rfl
  have h8 : min s.length Symbol.MAX_LEN ≤ 8 := by
    simp [Symbol.MAX_LEN, U64_SIZE]
  rw [hicl, show CODE_MASK = 511 from rfl,
    compute_icl_eq 511 _ (by norm_num) (by omega),
    show Symbol.FREE_ICL = 4060020736 by decide]
  have := h8
  norm_num
  omega

theorem prefMatch_free_eq_false (s : List Nat) :
    Symbol.prefMatch (Symbol.from_str_bytes s) Symbol.free = false := by
  unfold Symbol.prefMatch
  have hlt := from_str_bytes_icl_lt_free s
  have : Symbol.free.icl = Symbol.FREE_ICL := rfl
  rw [this, decide_eq_false (by omega : ¬ Symbol.FREE_ICL ≤ (Symbol.from_str_bytes s).icl),
    Bool.false_and]

/-- C5 (amended): the final fallback returns `byteCodes[firstByte] & CODE_MASK`.
On a table whose `byteCodes` entry for the probe's first byte is unmodified —
in particular on every fresh table, where both other branches always miss —
this is the byte's mirror code, at most 255. Once `add` installs a 1-byte
symbol for that byte, the fallback returns its code `256 + k > 255` instead
(see the counterexample). -/
theorem C5_fresh_table_fallback_le_255 (s : List Nat) :
    PerfectHashSymbolTable.new.find_longest_symbol_code s ≤ 255 := by
  have hhash : ∀ x, PerfectHashSymbolTable.new.hash_table x = Symbol.free := fun _ => rfl
  simp only [PerfectHashSymbolTable.find_longest_symbol_code]
  rw [hhash, prefMatch_free_eq_false s, if_neg (by simp)]
  have hshort : PerfectHashSymbolTable.new.short_codes (Symbol.from_str_bytes s).first2 &&& 511
      = (Symbol.from_str_bytes s).first2 &&& 255 := by
    show ((1 <<< LEN_BITS) ||| ((Symbol.from_str_bytes s).first2 &&& 0xff)) &&& 511 = _
    have hv : (Symbol.from_str_bytes s).first2 &&& 0xff < 256 :=
      lt_of_le_of_lt Nat.and_le_right (by norm_num)
    rw [Nat.lor_comm, show (1 : Nat) <<< LEN_BITS = 2 ^ 12 * 1 by decide,
      lor_add_mul_two_pow 12 _ 1 (by omega), and_511, and_255]
    omega
  rw [if_neg]
  · have hfirst : (Symbol.from_str_bytes s).first < 256 := by
      unfold Symbol.first
      exact lt_of_le_of_lt Nat.and_le_right (by norm_num)
    have hbyte : PerfectHashSymbolTable.new.byte_codes (Symbol.from_str_bytes s).first &&& 511
        = (Symbol.from_str_bytes s).first := by
      show ((1 <<< LEN_BITS) ||| (Symbol.from_str_bytes s).first) &&& 511 = _
      rw [Nat.lor_comm, show (1 : Nat) <<< LEN_BITS = 2 ^ 12 * 1 by decide,
        lor_add_mul_two_pow 12 _ 1 (by omega), and_511]
      omega
    rw [show CODE_MASK = 511 from rfl, hbyte]
    omega
  · rintro ⟨-, h2⟩
    rw [show CODE_MASK = 511 from rfl, hshort] at h2
    have : (Symbol.from_str_bytes s).first2 &&& 255 ≤ 255 := Nat.and_le_right
    simp [CODE_BASE] at h2
    omega

/-! ## Claim C6: capacity -/

/-- C6 (counterexample): `add` performs no capacity check. After 255
successful adds the table holds 255 symbols, and a further `add` still
returns `true` instead of `false`. -/
theorem C6_add_no_capacity_check_counterexample :
    ((List.range 255).foldl (fun t k => (t.add (Symbol.from_byte_code k 511)).2)
        PerfectHashSymbolTable.new).symbol_num = 255
    ∧ (((List.range 255).foldl (fun t k => (t.add (Symbol.from_byte_code k 511)).2)
        PerfectHashSymbolTable.new).add (Symbol.from_byte_code 255 511)).1 = true := by
  refine ⟨by decide, by decide⟩

theorem hash_insert_symbol_num (t : PerfectHashSymbolTable) (s : Symbol) :
    ((t.hash_insert s).2).symbol_num = t.symbol_num := by
  simp only [PerfectHashSymbolTable.hash_insert]
  split <;> rfl

theorem add_len_le (t : PerfectHashSymbolTable) (s : Symbol) :
    ((t.add s).2).len ≤ t.len + 1 := by
  by_cases h1 : s.length = 1
  · simp [PerfectHashSymbolTable.add, PerfectHashSymbolTable.len, h1]
  · by_cases h2 : s.length = 2
    · simp [PerfectHashSymbolTable.add, PerfectHashSymbolTable.len, h1, h2]
    · by_cases h3 : (t.hash_insert (s.set_code_len (CODE_BASE + t.symbol_num) s.length)).1
      · simp [PerfectHashSymbolTable.add, PerfectHashSymbolTable.len, h1, h2, h3,
          hash_insert_symbol_num]
      · simp [PerfectHashSymbolTable.add, PerfectHashSymbolTable.len, h1, h2, h3]

/-- The install loop at the end of `make_table`:
`while symbol_table.len() < 255 && !sorted_vec.is_empty() { add(pop()) }`.
`Vec::pop` takes the last element, so the loop processes the sorted vector
back to front; `installLoopRev` takes that reversed order directly. -/
def installLoopRev : PerfectHashSymbolTable → List (Symbol × Nat) → PerfectHashSymbolTable
  | t, [] => t
  | t, s :: rest => if t.len < 255 then installLoopRev (t.add s.1).2 rest else t

def installLoop (t : PerfectHashSymbolTable) (vec : List (Symbol × Nat)) :
    PerfectHashSymbolTable :=
  installLoopRev t vec.reverse

/-- C6 (amended): `add` itself has no capacity check (it returns `true` even
on a table already holding 255 symbols — see the counterexample); the 255
cap is enforced only by the builder's install loop, which never leaves the
table with more than 255 symbols. -/
theorem C6_builder_caps_at_255 (vec : List (Symbol × Nat)) (t : PerfectHashSymbolTable)
    (h : t.len ≤ 255) : (installLoopRev t vec).len ≤ 255 := by
  induction vec generalizing t with
  | nil => simpa [installLoopRev] using h
  | cons s rest ih =>
    unfold installLoopRev
    by_cases hlt : t.len < 255
    · rw [if_pos hlt]
      exact ih _ (le_trans (add_len_le t s.1) (by omega))
    · rw [if_neg hlt]
      exact h

/-- C6 (witness): the cap at a concrete table and candidate list. -/
theorem C6_builder_caps_at_255_witness :
    (installLoopRev PerfectHashSymbolTable.new [(Symbol.from_byte_code 7 511, 5)]).len ≤ 255 :=
  C6_builder_caps_at_255 [(Symbol.from_byte_code 7 511, 5)] PerfectHashSymbolTable.new
    (by decide)

/-! ## `src/core/codec.rs`: the encoder -/

/-- Bounds-checked write `buf[i] = v` into a vector of length `cap`
(out-of-bounds indexing on a `Vec` aborts, hence `none`). -/
def vecWrite (buf : Nat → Nat) (i v cap : Nat) : Option (Nat → Nat) :=
  if i < cap then some (fun j => if j = i then v else buf j) else none

/-- The loop of `Encoder::encode_str`, with explicit fuel. Each iteration
probes the remaining input, pre-writes the probe's first byte at
`out[pos_out + 1]`, writes the code at `out[pos_out]`, and advances by the
consumed/emitted counts `encode_for` reports. `none` models an aborted run
(out-of-bounds write) or — on fuel exhaustion — a loop that fails to
consume input, which in Rust would not terminate. -/
def encodeGo (t : PerfectHashSymbolTable) (s : List Nat) :
    Nat → Nat → Nat → (Nat → Nat) → Option ((Nat → Nat) × Nat)
  | 0, posIn, posOut, buf =>
    if posIn < s.length then none else some (buf, posOut)
  | fuel + 1, posIn, posOut, buf =>
    if posIn < s.length then
      let target := Symbol.from_str_bytes (s.drop posIn)
      match vecWrite buf (posOut + 1) target.first (2 * s.length) with
      | none => none
      | some buf1 =>
        let r := t.encode_for target
        match vecWrite buf1 posOut r.1 (2 * s.length) with
        | none => none
        | some buf2 => encodeGo t s fuel (posIn + r.2.1) (posOut + r.2.2) buf2
    else some (buf, posOut)

/-- `Encoder::encode_str`: the output vector truncated to `pos_out`. -/
def encode_str (t : PerfectHashSymbolTable) (s : List Nat) : Option (List Nat) :=
  (encodeGo t s (s.length + 1) 0 0 (fun _ => 0)).map
    (fun r => (List.range r.2).map r.1)

/-- `Encoder::encode`: optionally prepend the dumped table. -/
def encode (t : PerfectHashSymbolTable) (s : List Nat) (include_table : Bool) :
    Option (List Nat) :=
  (encode_str t s).map (fun buf => if include_table then t.dump ++ buf else buf)

/-! ## `src/core/codec.rs`: the decoder -/

/-- The dense decoder arrays (`[u64; 255]` and `[u8; 255]`). -/
structure Decoder where
  symbols : Nat → Nat
  lens : Nat → Nat

namespace Decoder

/-- `Decoder::from_table`: copy each learned symbol's value and length in
code order (the arrays stay 0 elsewhere). -/
def from_table (t : PerfectHashSymbolTable) : Decoder :=
  { symbols := fun i => if i < t.len then (t.get_symbol i).num else 0
    lens := fun i => if i < t.len then (t.get_symbol i).length else 0 }

end Decoder

/-- `unaligned_store`: read the code byte at `pos_in`, copy the full 8-byte
symbol word to `out[pos_out..pos_out+8]`, advance `pos_in` by 1 and
`pos_out` by `lens[code]` only. -/
def unaligned_store (d : Decoder) (buf : List Nat) (posIn posOut : Nat) (out : Nat → Nat) :
    Nat × Nat × (Nat → Nat) :=
  let code := buf.getD posIn 0
  let bytes := toBytesLE 8 (d.symbols code)
  (posIn + 1, posOut + d.lens code,
   fun q => if posOut ≤ q ∧ q < posOut + 8 then bytes.getD (q - posOut) 0 else out q)

/-- `first_escape_pos` stores, performed one at a time. -/
def storeN (d : Decoder) (buf : List Nat) : Nat → Nat × Nat × (Nat → Nat) → Nat × Nat × (Nat → Nat)
  | 0, st => st
  | n + 1, st => storeN d buf n (unaligned_store d buf st.1 st.2.1 st.2.2)

/-- The tail loop of `Decoder::decode` (per-byte, checking for `0xFF`),
with explicit fuel (the loop advances `pos_in` by at least 1 per iteration,
so `buf.length` fuel is always enough). A missing literal after a trailing
escape reads as 0 (the Rust code would abort there; no theorem below
exercises that case). -/
def decodeTailLoop (d : Decoder) (buf : List Nat) :
    Nat → Nat → Nat → (Nat → Nat) → (Nat → Nat) × Nat
  | 0, _, posOut, out => (out, posOut)
  | fuel + 1, posIn, posOut, out =>
    if posIn < buf.length then
      if buf.getD posIn 0 ≠ CODE_ESCAPE then
        let st := unaligned_store d buf posIn posOut out
        decodeTailLoop d buf fuel st.1 st.2.1 st.2.2
      else
        decodeTailLoop d buf fuel (posIn + 2) (posOut + 1)
          (fun q => if q = posOut then buf.getD (posIn + 1) 0 else out q)
    else (out, posOut)

/-- The word-parallel loop of `Decoder::decode`, with explicit fuel (each
iteration advances `pos_in` by at least 2). When `pos_in + 4 < len` fails
it falls through to the tail loop. -/
def decodeFastLoop (d : Decoder) (buf : List Nat) :
    Nat → Nat → Nat → (Nat → Nat) → (Nat → Nat) × Nat
  | 0, _, posOut, out => (out, posOut)
  | fuel + 1, posIn, posOut, out =>
    if posIn + 4 < buf.length then
      let next_block := bulk_load_u32 ((buf.drop posIn).take 4)
      let escMask := escape_mask next_block
      if escMask = 0 then
        let st := storeN d buf 4 (posIn, posOut, out)
        decodeFastLoop d buf fuel st.1 st.2.1 st.2.2
      else
        let first_escape_pos := ctz32 escMask >>> 3
        let st := storeN d buf first_escape_pos (posIn, posOut, out)
        decodeFastLoop d buf fuel (st.1 + 2) (st.2.1 + 1)
          (fun q => if q = st.2.1 then buf.getD (st.1 + 1) 0 else st.2.2 q)
    else decodeTailLoop d buf (fuel + 1) posIn posOut out

/-- `Decoder::decode`: run both loops on a fresh output buffer and truncate
to the final `pos_out`. (The Rust buffer has capacity `8 * len`, which the
loops never exceed for a well-formed decoder; the buffer is modelled as an
unbounded map.) -/
def Decoder.decode (d : Decoder) (buf : List Nat) : List Nat :=
  let r := decodeFastLoop d buf (buf.length + 1) 0 0 (fun _ => 0)
  (List.range r.2).map r.1

/-- The first `lens[code]` bytes of `symbols[code]` — what one non-escape
step of the decoder contributes to the truncated output. -/
def storeBytes (d : Decoder) (code : Nat) : List Nat :=
  (toBytesLE 8 (d.symbols code)).take (d.lens code)

/-- Modelled from the spec (§6, "Encoded byte stream"): the per-code
reference semantics of the stream — each step is either an escape
`0xFF, literal` (2 in / 1 out) or a code byte expanding to
`lens[c]` bytes of `symbols[c]`. Used as the common reference for both
decoders; fuelled like the loops above. -/
def simpleDecodeGo (d : Decoder) (buf : List Nat) : Nat → Nat → List Nat
  | 0, _ => []
  | fuel + 1, posIn =>
    if posIn < buf.length then
      if buf.getD posIn 0 = CODE_ESCAPE then
        buf.getD (posIn + 1) 0 :: simpleDecodeGo d buf fuel (posIn + 2)
      else
        storeBytes d (buf.getD posIn 0) ++ simpleDecodeGo d buf fuel (posIn + 1)
    else []

def simpleDecode (d : Decoder) (buf : List Nat) : List Nat :=
  simpleDecodeGo d buf (buf.length + 1) 0

/-! ## `src/core/symbol_table.rs`: the builder -/

/-- The builder state: the frequency counters and the admission constant
(`count_frac` is 0 for single-string builds, 5 for sampled builds). -/
structure SymbolTableBuilder where
  counter : Counter
  count_frac : Nat

/-- Value lookup in the candidate map (`candidates.get(&s).unwrap_or(&0)`);
keys compare with `Symbol`'s `(num, length)` equality. -/
def candGet (cands : List (Symbol × Nat)) (s : Symbol) : Nat :=
  match cands.find? (fun p => Symbol.symEq p.1 s) with
  | some p => p.2
  | none => 0

/-- `HashMap::insert`: replaces the value but keeps the existing key (with
its stored code bits) when one is present. The model keeps insertion order;
the iteration order of the Rust `HashMap` is unspecified, but the sort that
consumes this list orders any two distinct entries deterministically unless
they tie on both gain and symbol value. -/
def candInsert (cands : List (Symbol × Nat)) (s : Symbol) (v : Nat) : List (Symbol × Nat) :=
  if cands.any (fun p => Symbol.symEq p.1 s) then
    cands.map (fun p => if Symbol.symEq p.1 s then (p.1, v) else p)
  else cands ++ [(s, v)]

/-- `expand_candidate`: admit when `cnt >= count_frac * sample_frac / 128`
and accumulate `gain = length * cnt` (no overflow for realistic counts). -/
def expand_candidate (bld : SymbolTableBuilder) (cands : List (Symbol × Nat))
    (s : Symbol) (cnt sample_frac : Nat) : List (Symbol × Nat) :=
  if bld.count_frac * sample_frac / 128 ≤ cnt then
    candInsert cands s (candGet cands s + s.length * cnt)
  else cands

/-- The inner `pos2` loop of `make_table` (pairwise candidates); fuelled,
`end + 1` fuel always suffices since `pos2` advances by at least 1. -/
def pairScanGo (bld : SymbolTableBuilder) (t : PerfectHashSymbolTable) (s1 : Symbol)
    (sample_frac pos1 endv : Nat) :
    Nat → Nat → List (Symbol × Nat) → List (Symbol × Nat)
  | 0, _, cands => cands
  | fuel + 1, pos2, cands =>
    if pos2 < endv then
      let r := bld.counter.get_concat_and_forward pos1 pos2
      let cands' :=
        if 0 < r.1 then
          expand_candidate bld cands (s1.add (t.get_symbol r.2)) r.1 sample_frac
        else cands
      pairScanGo bld t s1 sample_frac pos1 endv fuel (r.2 + 1) cands'
    else cands

/-- The outer `pos1` loop of `make_table` (single-symbol candidates plus,
below 8-byte symbols and `sample_frac < 128`, the pairwise expansion). -/
def singleScanGo (bld : SymbolTableBuilder) (t : PerfectHashSymbolTable)
    (sample_frac endv : Nat) :
    Nat → Nat → List (Symbol × Nat) → List (Symbol × Nat)
  | 0, _, cands => cands
  | fuel + 1, pos1, cands =>
    if pos1 < endv then
      let r := bld.counter.get_single_and_forward pos1
      if r.1 = 0 then
        singleScanGo bld t sample_frac endv fuel (r.2 + 1) cands
      else
        let s1 := t.get_symbol r.2
        let heuristic_cnt := if s1.length = 1 then 8 * r.1 else r.1
        let cands1 := expand_candidate bld cands s1 heuristic_cnt sample_frac
        let cands2 :=
          if s1.length = Symbol.MAX_LEN ∨ 128 ≤ sample_frac then cands1
          else pairScanGo bld t s1 sample_frac r.2 endv (endv + 1) 0 cands1
        singleScanGo bld t sample_frac endv fuel (r.2 + 1) cands2
    else cands

/-- `make_table`: collect candidates from the counters, sort them with the
gain/value comparator, clear the table and install popped candidates until
255 symbols or exhaustion. -/
def make_table (bld : SymbolTableBuilder) (sample_frac : Nat)
    (t : PerfectHashSymbolTable) : PerfectHashSymbolTable :=
  let endv := CODE_BASE + t.len
  let candidates := singleScanGo bld t sample_frac endv (endv + 1) 0 []
  let sorted_vec := sortBy candCmp candidates
  installLoop t.clear sorted_vec

/-- The segmentation loop of `count_line`; fuelled (`len + 1` suffices since
every reachable symbol consumes at least one byte). -/
def countLineGo (t : PerfectHashSymbolTable) (str_bytes : List Nat) (sample_frac : Nat) :
    Nat → Nat → Nat → Int → Counter → Int × Counter
  | 0, _, _, gain, ctr => (gain, ctr)
  | fuel + 1, pos, code1, gain, ctr =>
    let s1 := t.get_symbol code1
    let ctr := ctr.inc_single code1
    let ctr := if 1 < s1.length then ctr.inc_single (str_bytes.getD pos 0) else ctr
    let gain := gain + (s1.length : Int) - (1 + (if is_escape_code code1 then 1 else 0))
    let pos' := pos + s1.length
    if str_bytes.length ≤ pos' then (gain, ctr)
    else
      let code2 := t.find_longest_symbol_code (str_bytes.drop pos')
      let s2 := t.get_symbol code2
      let ctr :=
        if sample_frac < 128 then
          let ctr := ctr.inc_concat code1 code2
          if 1 < s2.length then ctr.inc_concat code1 (str_bytes.getD pos' 0) else ctr
        else ctr
      countLineGo t str_bytes sample_frac fuel pos' code2 gain ctr

def count_line (ctr : Counter) (str_bytes : List Nat) (sample_frac : Nat)
    (t : PerfectHashSymbolTable) : Int × Counter :=
  countLineGo t str_bytes sample_frac (str_bytes.length + 1) 0
    (t.find_longest_symbol_code str_bytes) 0 ctr

/-- `compute_freq`: per sample, the probabilistic skip (active only for more
than 128 samples below the final round), then `count_line`. The `usize`
product `fsst_hash(1+i) * sample_frac` wraps modulo `2^64`. -/
def compute_freq (ctr : Counter) (samples : List (List Nat)) (sample_frac : Nat)
    (t : PerfectHashSymbolTable) : Int × Counter :=
  (List.range samples.length).foldl
    (fun acc i =>
      if 128 < samples.length ∧ sample_frac < 128
          ∧ sample_frac < 1 + (fsst_hash (1 + i) * sample_frac % 2 ^ 64 &&& 127) then acc
      else
        let r := count_line acc.2 (samples.getD i []) sample_frac t
        (acc.1 + r.1, r.2))
    (0, ctr)

/-- The round loop of `build` (`sample_frac` 8, 38, 68, 98, 128); fuelled
with 6, more than the 5 rounds ever taken. Returns the counter, the backed
up best single counts and the best table clone. -/
def buildLoop (count_frac : Nat) (samples : List (List Nat)) :
    Nat → Nat → Counter → PerfectHashSymbolTable → PerfectHashSymbolTable → Int
      → ((Nat → Nat) × (Nat → Nat))
      → Counter × ((Nat → Nat) × (Nat → Nat)) × PerfectHashSymbolTable
  | 0, _, ctr, _, best_table, _, best_single => (ctr, best_single, best_table)
  | fuel + 1, sample_frac, ctr, table, best_table, best_gain, best_single =>
    let r := compute_freq ctr samples sample_frac table
    let bests :=
      if best_gain < r.1 then (r.2.backup_single, table) else (best_single, best_table)
    if 128 ≤ sample_frac then
      (r.2, bests.1, bests.2)
    else
      let table' := make_table ⟨r.2, count_frac⟩ sample_frac table
      buildLoop count_frac samples fuel (sample_frac + 30) (r.2.reset) table'
        bests.2 (max best_gain r.1) bests.1

/-- `SymbolTableBuilder::build`: run the rounds, restore the best counters,
run a final `make_table` on the best table and finalize it. -/
def build (count_frac : Nat) (samples : List (List Nat)) : PerfectHashSymbolTable :=
  let r := buildLoop count_frac samples 6 8 Counter.new PerfectHashSymbolTable.new
      PerfectHashSymbolTable.new (-(2 ^ 63) : Int) ((fun _ => 0), (fun _ => 0))
  let ctr := r.1.restore_single r.2.1
  let best := make_table ⟨ctr, count_frac⟩ 128 r.2.2
  best.finalize

/-- `SymbolTableBuilder::build_from` (single string, `count_frac = 0`). -/
def build_from (s : List Nat) : PerfectHashSymbolTable := build 0 [s]

/-- `SymbolTableBuilder::build_from_samples` (`count_frac = 5`). -/
def build_from_samples (samples : List (List Nat)) : PerfectHashSymbolTable :=
  build 5 samples

/-- `lib.rs` `encode_string`: build a table from the string and encode it. -/
def encode_string (s : List Nat) (including_table : Bool) :
    PerfectHashSymbolTable × Option (List Nat) :=
  let t := build_from s
  (t, encode t s including_table)

/-! ## Claim C1: round-trip through the single-string pipeline -/

/-- The 23-byte input `"aab\x00"` repeated five times, then `"aab"`. -/
def nulTailInput : List Nat :=
  (List.range 5).flatMap (fun _ => [97, 97, 98, 0]) ++ [97, 97, 98]

/-- C1 (failing input): the single-string pipeline does not round-trip
`nulTailInput`. The builder learns the 2-byte symbol `[0x62, 0x00]`; at the
final 1-byte tail `"b"` the zero-padded probe's `firstTwoBytes` is exactly
that pair, so `encode_for` reports a 2-byte consumption past the end of the
input and the decoder reproduces the input with a spurious trailing `0x00`. -/
theorem C1_roundtrip_fails_on_nul_input :
    (match encode_string nulTailInput false with
     | (t, some out) => Decoder.decode (Decoder.from_table t) out
     | (_, none) => []) = nulTailInput ++ [0]
    ∧ nulTailInput ++ [0] ≠ nulTailInput := by
  constructor
  · decide
  · decide

/-! ## Claim C10: encoder progress and output bound -/

/-- The structural well-formedness every table built and finalized by the
library satisfies: every `short_codes` entry carries a consumption length of
at least 1 in its upper nibble (mirror entries carry 1, learned 2-byte
entries 2), and every hash-table slot is either free or holds a symbol of
positive length (the builder only hash-inserts symbols of length ≥ 3). -/
def encodeWF (t : PerfectHashSymbolTable) : Prop :=
  t.finalized = true
  ∧ (∀ i, 1 ≤ t.short_codes i >>> LEN_BITS)
  ∧ (∀ i, 1 ≤ (t.hash_table i).length ∨ (t.hash_table i).icl = Symbol.FREE_ICL)

/-- On a well-formed table every `encode_for` call consumes at least one
input byte and emits at most two output bytes. -/
theorem encode_for_progress (t : PerfectHashSymbolTable) (hwf : encodeWF t)
    (l : List Nat) :
    1 ≤ (t.encode_for (Symbol.from_str_bytes l)).2.1
    ∧ (t.encode_for (Symbol.from_str_bytes l)).2.2 ≤ 2 := by
  obtain ⟨-, hshort, hhash⟩ := hwf
  simp only [PerfectHashSymbolTable.encode_for]
  by_cases hp : (Symbol.from_str_bytes l).prefMatch
      (t.hash_table (PerfectHashSymbolTable.hash_idx (Symbol.from_str_bytes l).hash))
  · rw [if_pos hp]
    refine ⟨?_, by exact one_le_two⟩
    rcases hhash (PerfectHashSymbolTable.hash_idx (Symbol.from_str_bytes l).hash) with h | h
    · exact h
    · exfalso
      have hle : (t.hash_table
            (PerfectHashSymbolTable.hash_idx (Symbol.from_str_bytes l).hash)).icl
          ≤ (Symbol.from_str_bytes l).icl := by
        unfold Symbol.prefMatch at hp
        rw [Bool.and_eq_true, decide_eq_true_eq] at hp
        exact hp.1
      rw [h] at hle
      exact absurd hle (not_le.mpr (from_str_bytes_icl_lt_free l))
  · rw [if_neg hp]
    refine ⟨hshort _, ?_⟩
    have h1 : t.short_codes (Symbol.from_str_bytes l).first2 &&& CODE_BASE ≤ 256 := by
      rw [show CODE_BASE = 256 from rfl]
      exact Nat.and_le_right
    have h2 : (t.short_codes (Symbol.from_str_bytes l).first2 &&& CODE_BASE) >>> 8 ≤ 1 := by
      rw [Nat.shiftRight_eq_div_pow]
      omega
    show 1 + (t.short_codes (Symbol.from_str_bytes l).first2 &&& CODE_BASE) >>> 8 ≤ 2
    omega

/-- On a well-formed table the encode loop never runs out of fuel, never
writes out of bounds, and its final output position stays within twice the
input length. -/
theorem encodeGo_total (t : PerfectHashSymbolTable) (hwf : encodeWF t) (s : List Nat) :
    ∀ fuel posIn posOut buf,
      s.length ≤ posIn + fuel → posOut ≤ 2 * min posIn s.length →
      ∃ r, encodeGo t s fuel posIn posOut buf = some r ∧ r.2 ≤ 2 * s.length := by
  intro fuel
  induction fuel with
  | zero =>
    intro posIn posOut buf hfuel hout
    refine ⟨(buf, posOut), ?_, ?_⟩
    · simp only [encodeGo]
      rw [if_neg (by omega)]
    · have := Nat.min_le_right posIn s.length
      omega
  | succ fuel ih =>
    intro posIn posOut buf hfuel hout
    by_cases hlt : posIn < s.length
    · have hmin : min posIn s.length = posIn := Nat.min_eq_left (le_of_lt hlt)
      rw [hmin] at hout
      have hb1 : posOut + 1 < 2 * s.length := by omega
      have hb0 : posOut < 2 * s.length := by omega
      obtain ⟨hc, he⟩ := encode_for_progress t hwf (s.drop posIn)
      have hstep : encodeGo t s (fuel + 1) posIn posOut buf
          = encodeGo t s fuel
              (posIn + (t.encode_for (Symbol.from_str_bytes (s.drop posIn))).2.1)
              (posOut + (t.encode_for (Symbol.from_str_bytes (s.drop posIn))).2.2)
              (fun j => if j = posOut
                then (t.encode_for (Symbol.from_str_bytes (s.drop posIn))).1
                else if j = posOut + 1
                  then (Symbol.from_str_bytes (s.drop posIn)).first
                  else buf j) := by
        simp only [encodeGo, vecWrite]
        rw [if_pos hlt, if_pos hb1]
        simp only [if_pos hb0]
      rw [hstep]
      apply ih
      · omega
      · have h1 : posIn + 1 ≤ min
            (posIn + (t.encode_for (Symbol.from_str_bytes (s.drop posIn))).2.1)
            s.length := by omega
        omega
    · refine ⟨(buf, posOut), ?_, ?_⟩
      · simp only [encodeGo]
        rw [if_neg hlt]
      · have := Nat.min_le_right posIn s.length
        omega

/-- The fresh table, finalized with no learned symbols, maps every
`short_codes` entry to the escape fallback `0x11FF`. -/
theorem finalize_new_short (i : Nat) :
    PerfectHashSymbolTable.new.finalize.short_codes i = 4607 := by
  have hnew : PerfectHashSymbolTable.new.short_codes i
      = (1 <<< LEN_BITS) ||| (i &&& 0xff) := rfl
  have hb : PerfectHashSymbolTable.new.byte_codes (i &&& 0xff)
      = (1 <<< LEN_BITS) ||| (i &&& 0xff) := rfl
  have hlt : i &&& 0xff < 256 := lt_of_le_of_lt Nat.and_le_right (by norm_num)
  have hmask : ((1 <<< LEN_BITS) ||| (i &&& 0xff)) &&& 511 = i &&& 0xff := by
    rw [Nat.lor_comm, show (1 : Nat) <<< LEN_BITS = 2 ^ 12 * 1 by decide,
      lor_add_mul_two_pow 12 _ 1 (by omega), and_511]
    omega
  simp only [PerfectHashSymbolTable.finalize]
  rw [show CODE_MASK = 511 from rfl, hnew, hmask,
    if_neg (by rw [show CODE_BASE = 256 from rfl]; omega),
    hb, hmask, if_neg (by rw [show CODE_BASE = 256 from rfl]; omega)]
  decide

/-- Finalizing the fresh table leaves every hash slot free. -/
theorem finalize_new_hash (i : Nat) :
    PerfectHashSymbolTable.new.finalize.hash_table i = Symbol.free := by
  have h : PerfectHashSymbolTable.new.hash_table i = Symbol.free := rfl
  simp only [PerfectHashSymbolTable.finalize]
  rw [h, if_neg (by decide)]

theorem encodeWF_finalize_new : encodeWF PerfectHashSymbolTable.new.finalize := by
  refine ⟨rfl, fun i => ?_, fun i => Or.inr ?_⟩
  · rw [finalize_new_short]
    decide
  · rw [finalize_new_hash]
    rfl

/-- C10: on every well-formed finalized table (the invariant `encodeWF` holds
for every table the library finalizes) each encoder iteration consumes at
least one input byte and emits at most two output bytes, so `encode_str`
terminates without any out-of-bounds write and its output is at most twice
the input length. -/
theorem C10_encode_progress_and_bound (t : PerfectHashSymbolTable)
    (hwf : encodeWF t) (s : List Nat) :
    (∀ l, 1 ≤ (t.encode_for (Symbol.from_str_bytes l)).2.1
      ∧ (t.encode_for (Symbol.from_str_bytes l)).2.2 ≤ 2)
    ∧ ∃ out, encode_str t s = some out ∧ out.length ≤ 2 * s.length := by
  refine ⟨fun l => encode_for_progress t hwf l, ?_⟩
  obtain ⟨r, hr, hb⟩ := encodeGo_total t hwf s (s.length + 1) 0 0 (fun _ => 0)
    (by omega) (by simp)
  refine ⟨(List.range r.2).map r.1, ?_, by simpa using hb⟩
  rw [encode_str, hr]
  rfl

/-- C10 (witness): the bound at the finalized fresh table on the two-byte
input `[104, 105]`, which encodes to the four escape bytes. -/
theorem C10_encode_progress_and_bound_witness :
    encodeWF PerfectHashSymbolTable.new.finalize
    ∧ (Option.map List.length
        (encode_str PerfectHashSymbolTable.new.finalize [104, 105])).getD 5 ≤ 2 * 2 := by
  refine ⟨encodeWF_finalize_new, ?_⟩
  obtain ⟨-, out, hout, hlen⟩ := C10_encode_progress_and_bound
    PerfectHashSymbolTable.new.finalize encodeWF_finalize_new [104, 105]
  rw [hout]
  simpa using hlen

/-! ## Claim C4: `Decoder::from_table_bytes` and the dump round trip -/

/-- The same-endian branch of `from_table_bytes`' symbol read: after `num`
is seeded from the byte at `pos + len - 1`, the loop `for i in (0..len-1).rev()`
shifts in the remaining bytes downward. `k` counts the iterations left, so the
next index read is `pos + k - 1`; a failing `buf.get(..).unwrap()` aborts.
(`num` stays below `2^(8*len) ≤ 2^64`, so the `u64` shifts cannot overflow.) -/
def readSymbolGo (buf : List Nat) (pos : Nat) : Nat → Nat → Option Nat
  | 0, num => some num
  | k + 1, num =>
    match buf[pos + k]? with
    | none => none
    | some b => readSymbolGo buf pos k ((num <<< 8) ||| b)

def readSymbolLE (buf : List Nat) (pos len : Nat) : Option Nat :=
  match buf[pos + len - 1]? with
  | none => none
  | some b => readSymbolGo buf pos (len - 1) b

/-- The opposite-endian branch: seed from `buf[pos]`, then
`for i in 1..len` shifts in the following bytes upward; with `k` iterations
left the next index read is `pos + (len - k)`. -/
def readSymbolBEGo (buf : List Nat) (pos len : Nat) : Nat → Nat → Option Nat
  | 0, num => some num
  | k + 1, num =>
    match buf[pos + (len - (k + 1))]? with
    | none => none
    | some b => readSymbolBEGo buf pos len k ((num <<< 8) ||| b)

def readSymbolBE (buf : List Nat) (pos len : Nat) : Option Nat :=
  match buf[pos]? with
  | none => none
  | some b => readSymbolBEGo buf pos len (len - 1) b

/-- The inner `for _ in 0..len_histo[len - 1]` loop of `from_table_bytes`,
reading one `len`-byte symbol per iteration. The state is
`(pos, code, symbols, lens)`; the store `symbols[code] = num` into the
`[u64; 255]` array is out of bounds for `code ≥ 255` and aborts. `same`
selects the reading branch (the native machine is little-endian, so the
same-endian branch runs exactly when the dumped endian byte is 0). -/
def parseBucket (buf : List Nat) (same : Bool) (len : Nat) :
    Nat → Nat × Nat × (Nat → Nat) × (Nat → Nat) →
    Option (Nat × Nat × (Nat → Nat) × (Nat → Nat))
  | 0, st => some st
  | c + 1, st =>
    match (if same then readSymbolLE buf st.1 len else readSymbolBE buf st.1 len) with
    | none => none
    | some num =>
      if st.2.1 < 255 then
        parseBucket buf same len c
          (st.1 + len, st.2.1 + 1,
           (fun j => if j = st.2.1 then num else st.2.2.1 j),
           (fun j => if j = st.2.1 then len else st.2.2.2 j))
      else none

/-- `Decoder::from_table_bytes`: read the endian byte and the 8 histogram
bytes, then parse `len_histo[len - 1]` symbols of each length `1..=8`,
returning the final offset and the decoder. `none` models a panic: an empty
buffer or unknown endian byte (`Endian::from_u8`), a buffer shorter than the
9-byte header (`&buf[1..9]`), a missing symbol byte, or a 256th symbol. -/
def Decoder.from_table_bytes (buf : List Nat) : Option (Nat × Decoder) :=
  match buf[0]? with
  | none => none
  | some e =>
    if e = 0 ∨ e = 1 then
      if 9 ≤ buf.length then
        match (List.range 8).foldl
            (fun (st : Option (Nat × Nat × (Nat → Nat) × (Nat → Nat))) lidx =>
              match st with
              | none => none
              | some st => parseBucket buf (e == 0) (lidx + 1) (buf.getD (1 + lidx) 0) st)
            (some (9, 0, (fun _ => (0 : Nat)), (fun _ => (0 : Nat)))) with
        | none => none
        | some st => some (st.1, { symbols := st.2.2.1, lens := st.2.2.2 })
      else none
    else none

/-- Running sum of the length histogram: the first code of length bucket
`l` (this is `finalize`'s `rsum`). -/
def histoSum (t : PerfectHashSymbolTable) (l : Nat) : Nat :=
  (List.range l).foldl (fun a j => a + t.len_histo j) 0

/-- Byte offset of code `c`'s bytes inside the dumped symbol area. -/
def dumpOffset (t : PerfectHashSymbolTable) : Nat → Nat
  | 0 => 0
  | c + 1 => dumpOffset t c + (t.get_symbol c).length

/-- The dumped symbol area starting at code `c`, for `k` codes. -/
def dumpBodyFrom (t : PerfectHashSymbolTable) : Nat → Nat → List Nat
  | _, 0 => []
  | c, k + 1 =>
    toBytesLE (t.get_symbol c).length (t.get_symbol c).num ++ dumpBodyFrom t (c + 1) k

/-- What `dump` guarantees about a table the library finalized: at most 255
symbols, the histogram counts them all, codes are grouped by length
(bucket `l` holds exactly the codes in `[histoSum l, histoSum (l+1))`,
all of length `l + 1`), and each symbol's value fits its length's bytes. -/
def dumpWF (t : PerfectHashSymbolTable) : Prop :=
  t.symbol_num ≤ 255
  ∧ histoSum t 8 = t.symbol_num
  ∧ (∀ l, l < 8 → ∀ c, c < histoSum t (l + 1) → histoSum t l ≤ c →
      (t.get_symbol c).length = l + 1)
  ∧ (∀ c, c < t.symbol_num →
      (t.get_symbol c).num < 2 ^ (8 * (t.get_symbol c).length))

theorem toBytesLE_lt (n v : Nat) : ∀ b ∈ toBytesLE n v, b < 256 := by
  induction n generalizing v with
  | zero => intro b hb; simp [toBytesLE] at hb
  | succ n ih =>
    intro b hb
    rw [toBytesLE] at hb
    rcases List.mem_cons.mp hb with h | h
    · subst h; exact Nat.mod_lt _ (by norm_num)
    · exact ih _ b h

theorem packLE_take_succ (bs : List Nat) : ∀ k, k < bs.length →
    packLE (bs.take (k + 1)) = packLE (bs.take k) + 2 ^ (8 * k) * bs.getD k 0 := by
  induction bs with
  | nil => intro k hk; simp at hk
  | cons b rest ih =>
    intro k hk
    cases k with
    | zero => simp [packLE]
    | succ k =>
      rw [List.take_succ_cons, List.take_succ_cons, packLE, packLE,
        ih k (by simpa using hk), List.getD_cons_succ, two_pow_8_succ]
      ring

theorem readSymbolGo_spec (buf : List Nat) (pos : Nat) (bs : List Nat)
    (hget : ∀ i, i < bs.length → buf[pos + i]? = some (bs.getD i 0))
    (hbyte : ∀ b ∈ bs, b < 256) :
    ∀ k, k ≤ bs.length → ∀ num,
      readSymbolGo buf pos k num = some (packLE (bs.take k) + 2 ^ (8 * k) * num) := by
  intro k
  induction k with
  | zero => intro _ num; simp [readSymbolGo, packLE]
  | succ k ih =>
    intro hk num
    rw [readSymbolGo, hget k (by omega)]
    simp only [ih (by omega)]
    congr 1
    have hkl : k < bs.length := by omega
    have hb : bs.getD k 0 < 256 := by
      rw [List.getD_eq_getElem bs 0 hkl]
      exact hbyte _ (bs.getElem_mem hkl)
    have hsh : (num <<< 8) ||| bs.getD k 0 = bs.getD k 0 + 2 ^ 8 * num := by
      rw [Nat.shiftLeft_eq, Nat.mul_comm, Nat.lor_comm, lor_add_mul_two_pow 8 _ num hb]
    rw [hsh, packLE_take_succ bs k hkl, two_pow_8_succ]
    ring

theorem readSymbolLE_spec (buf : List Nat) (pos len num : Nat) (h1 : 1 ≤ len)
    (hget : ∀ i, i < len → buf[pos + i]? = some ((toBytesLE len num).getD i 0))
    (hnum : num < 2 ^ (8 * len)) :
    readSymbolLE buf pos len = some num := by
  have hlen : (toBytesLE len num).length = len := toBytesLE_length len num
  rw [readSymbolLE, show pos + len - 1 = pos + (len - 1) from by omega,
    hget (len - 1) (by omega)]
  simp only [readSymbolGo_spec buf pos (toBytesLE len num)
    (fun i hi => hget i (by omega)) (toBytesLE_lt len num) (len - 1) (by omega)]
  rw [← packLE_take_succ _ (len - 1) (by omega), show len - 1 + 1 = len from by omega]
  have htake : (toBytesLE len num).take len = toBytesLE len num := by
    rw [toBytesLE_take, Nat.min_self]
  rw [htake, packLE_toBytesLE, Nat.mod_eq_of_lt hnum]

theorem sliceLen_length (f : Nat → Nat) (k : Nat) : ∀ s, (sliceLen f s k).length = k := by
  induction k with
  | zero => intro s; rfl
  | succ k ih => intro s; simp [sliceLen, ih]

theorem sliceLen_getD (f : Nat → Nat) (k : Nat) :
    ∀ s i, i < k → (sliceLen f s k).getD i 0 = f (s + i) := by
  induction k with
  | zero => intro s i hi; omega
  | succ k ih =>
    intro s i hi
    cases i with
    | zero => simp [sliceLen]
    | succ i =>
      rw [sliceLen, List.getD_cons_succ, ih (s + 1) i (by omega)]
      congr 1
      omega

theorem histoSum_succ (t : PerfectHashSymbolTable) (m : Nat) :
    histoSum t (m + 1) = histoSum t m + t.len_histo m := by
  simp [histoSum, List.range_succ]

theorem histoSum_mono (t : PerfectHashSymbolTable) {a b : Nat} (h : a ≤ b) :
    histoSum t a ≤ histoSum t b := by
  induction b with
  | zero => have : a = 0 := by omega
            subst this; exact le_refl _
  | succ b ihb =>
    rcases Nat.lt_or_ge a (b + 1) with h1 | h1
    · exact le_trans (ihb (by omega)) (by rw [histoSum_succ]; omega)
    · have : a = b + 1 := by omega
      subst this; exact le_refl _

theorem dumpBodyFrom_foldr (t : PerfectHashSymbolTable) (k : Nat) : ∀ c,
    (List.range' c k).foldr
        (fun i acc => toBytesLE (t.get_symbol i).length (t.get_symbol i).num ++ acc) []
      = dumpBodyFrom t c k := by
  induction k with
  | zero => intro c; rfl
  | succ k ih =>
    intro c
    rw [List.range'_succ, List.foldr_cons, ih (c + 1)]
    rfl

theorem dump_eq (t : PerfectHashSymbolTable) :
    t.dump = 0 :: sliceLen t.len_histo 0 8 ++ dumpBodyFrom t 0 t.symbol_num := by
  rw [PerfectHashSymbolTable.dump, List.range_eq_range',
    dumpBodyFrom_foldr t t.symbol_num 0]

theorem dumpOffset_body_length (t : PerfectHashSymbolTable) (k : Nat) : ∀ c,
    dumpOffset t (c + k) = dumpOffset t c + (dumpBodyFrom t c k).length := by
  induction k with
  | zero => intro c; simp [dumpBodyFrom]
  | succ k ih =>
    intro c
    rw [show c + (k + 1) = (c + 1) + k from by omega, ih (c + 1), dumpBodyFrom,
      List.length_append, toBytesLE_length, dumpOffset]
    omega

theorem dumpBodyFrom_drop (t : PerfectHashSymbolTable) (n : Nat) (c : Nat) : c ≤ n →
    (dumpBodyFrom t 0 n).drop (dumpOffset t c) = dumpBodyFrom t c (n - c) := by
  induction c with
  | zero => intro _; simp [dumpOffset]
  | succ c ih =>
    intro hc
    have h1 : dumpOffset t (c + 1) = dumpOffset t c + (t.get_symbol c).length := rfl
    have h4 := List.drop_left (toBytesLE (t.get_symbol c).length (t.get_symbol c).num)
      (dumpBodyFrom t (c + 1) (n - (c + 1)))
    rw [toBytesLE_length] at h4
    rw [h1, ← List.drop_drop, ih (by omega), show n - c = (n - (c + 1)) + 1 from by omega,
      dumpBodyFrom]
    exact h4

theorem dump_drop (t : PerfectHashSymbolTable) (c : Nat) (hc : c ≤ t.symbol_num) :
    t.dump.drop (9 + dumpOffset t c) = dumpBodyFrom t c (t.symbol_num - c) := by
  rw [dump_eq, ← List.drop_drop]
  have hH : (0 :: sliceLen t.len_histo 0 8 : List Nat).length = 9 := by
    rw [List.length_cons, sliceLen_length]
  have h9 := List.drop_left (0 :: sliceLen t.len_histo 0 8) (dumpBodyFrom t 0 t.symbol_num)
  rw [hH] at h9
  rw [h9, dumpBodyFrom_drop t t.symbol_num c hc]

theorem parseBucket_step (buf : List Nat) (len n p code : Nat) (syms lens : Nat → Nat)
    (num : Nat) (hread : readSymbolLE buf p len = some num) (h255 : code < 255) :
    parseBucket buf true len (n + 1) (p, code, syms, lens)
      = parseBucket buf true len n
          (p + len, code + 1,
           (fun j => if j = code then num else syms j),
           (fun j => if j = code then len else lens j)) := by
  simp [parseBucket, hread, h255]

theorem parseBucket_spec (t : PerfectHashSymbolTable)
    (hcap : t.symbol_num ≤ 255)
    (hnum : ∀ c, c < t.symbol_num →
      (t.get_symbol c).num < 2 ^ (8 * (t.get_symbol c).length))
    (l : Nat) :
    ∀ n code syms lens, code + n ≤ t.symbol_num →
      (∀ c, code ≤ c → c < code + n → (t.get_symbol c).length = l + 1) →
      ∃ syms' lens',
        parseBucket t.dump true (l + 1) n (9 + dumpOffset t code, code, syms, lens)
          = some (9 + dumpOffset t (code + n), code + n, syms', lens')
        ∧ (∀ j, syms' j = if code ≤ j ∧ j < code + n then (t.get_symbol j).num else syms j)
        ∧ (∀ j, lens' j = if code ≤ j ∧ j < code + n then l + 1 else lens j) := by
  intro n
  induction n with
  | zero =>
    intro code syms lens hle hlen
    refine ⟨syms, lens, ?_, ?_, ?_⟩
    · simp only [parseBucket, Nat.add_zero]
    · intro j; rw [if_neg (by omega)]
    · intro j; rw [if_neg (by omega)]
  | succ n ih =>
    intro code syms lens hle hlen
    have hlenc : (t.get_symbol code).length = l + 1 := hlen code (le_refl _) (by omega)
    have hdrop := dump_drop t code (by omega)
    rw [show t.symbol_num - code = (t.symbol_num - (code + 1)) + 1 from by omega,
      dumpBodyFrom, hlenc] at hdrop
    have hget : ∀ i, i < l + 1 → t.dump[(9 + dumpOffset t code) + i]?
        = some ((toBytesLE (l + 1) (t.get_symbol code).num).getD i 0) := by
      intro i hi
      have hil : i < (toBytesLE (l + 1) (t.get_symbol code).num).length := by
        rw [toBytesLE_length]; exact hi
      rw [← List.getElem?_drop, hdrop, List.getElem?_append, if_pos hil,
        List.getElem?_eq_getElem hil, List.getD_eq_getElem _ 0 hil]
    have hread : readSymbolLE t.dump (9 + dumpOffset t code) (l + 1)
        = some (t.get_symbol code).num := by
      refine readSymbolLE_spec _ _ _ _ (by omega) hget ?_
      have := hnum code (by omega)
      rwa [hlenc] at this
    obtain ⟨syms', lens', hrec, hs', hl'⟩ := ih (code + 1)
      (fun j => if j = code then (t.get_symbol code).num else syms j)
      (fun j => if j = code then l + 1 else lens j)
      (by omega) (fun c h1 h2 => hlen c (by omega) (by omega))
    refine ⟨syms', lens', ?_, ?_, ?_⟩
    · rw [parseBucket_step t.dump (l + 1) n (9 + dumpOffset t code) code syms lens
        (t.get_symbol code).num hread (by omega)]
      rw [show 9 + dumpOffset t code + (l + 1) = 9 + dumpOffset t (code + 1) from by
        have hoff : dumpOffset t (code + 1)
            = dumpOffset t code + (t.get_symbol code).length := rfl
        rw [hoff, hlenc]
        omega]
      rw [show code + (n + 1) = code + 1 + n from by omega]
      exact hrec
    · intro j
      rw [hs' j]
      by_cases h1 : code + 1 ≤ j ∧ j < code + 1 + n
      · rw [if_pos h1, if_pos (by omega)]
      · rw [if_neg h1]
        by_cases h2 : j = code
        · subst h2; rw [if_pos rfl, if_pos (by omega)]
        · rw [if_neg h2, if_neg (by omega)]
    · intro j
      rw [hl' j]
      by_cases h1 : code + 1 ≤ j ∧ j < code + 1 + n
      · rw [if_pos h1, if_pos (by omega)]
      · rw [if_neg h1]
        by_cases h2 : j = code
        · subst h2; rw [if_pos rfl, if_pos (by omega)]
        · rw [if_neg h2, if_neg (by omega)]

theorem parseAll_spec (t : PerfectHashSymbolTable) (h : dumpWF t) :
    ∀ m, m ≤ 8 → ∃ syms' lens',
      (List.range m).foldl
          (fun (st : Option (Nat × Nat × (Nat → Nat) × (Nat → Nat))) lidx =>
            match st with
            | none => none
            | some st => parseBucket t.dump true (lidx + 1) (t.dump.getD (1 + lidx) 0) st)
          (some (9, 0, (fun _ => (0 : Nat)), (fun _ => (0 : Nat))))
        = some (9 + dumpOffset t (histoSum t m), histoSum t m, syms', lens')
      ∧ (∀ j, syms' j = if j < histoSum t m then (t.get_symbol j).num else 0)
      ∧ (∀ j, lens' j = if j < histoSum t m then (t.get_symbol j).length else 0) := by
  obtain ⟨hcap, hsum, hbucket, hnum⟩ := h
  intro m
  induction m with
  | zero =>
    intro _
    refine ⟨(fun _ => 0), (fun _ => 0), rfl, ?_, ?_⟩
    · intro j; simp [histoSum]
    · intro j; simp [histoSum]
  | succ m ih =>
    intro hm8
    obtain ⟨syms1, lens1, hfold, hs1, hl1⟩ := ih (by omega)
    have hhisto : t.dump.getD (1 + m) 0 = t.len_histo m := by
      rw [dump_eq, Nat.add_comm,
        List.getD_append _ _ _ _ (by rw [List.length_cons, sliceLen_length]; omega),
        List.getD_cons_succ, sliceLen_getD t.len_histo 8 0 m (by omega), Nat.zero_add]
    have hcount : histoSum t m + t.len_histo m ≤ t.symbol_num := by
      have h1 : histoSum t (m + 1) ≤ histoSum t 8 := histoSum_mono t (by omega)
      rw [histoSum_succ] at h1
      omega
    obtain ⟨syms', lens', hpb, hs', hl'⟩ := parseBucket_spec t hcap hnum m
      (t.len_histo m) (histoSum t m) syms1 lens1 hcount
      (fun c h1 h2 => hbucket m (by omega) c (by rw [histoSum_succ]; omega) h1)
    refine ⟨syms', lens', ?_, ?_, ?_⟩
    · rw [List.range_succ, List.foldl_append, hfold, List.foldl_cons, List.foldl_nil]
      simp only []
      rw [hhisto, histoSum_succ]
      exact hpb
    · intro j
      rw [hs' j, histoSum_succ]
      by_cases h1 : histoSum t m ≤ j ∧ j < histoSum t m + t.len_histo m
      · rw [if_pos h1, if_pos (by omega)]
      · rw [if_neg h1, hs1 j]
        by_cases h2 : j < histoSum t m
        · rw [if_pos h2, if_pos (by omega)]
        · rw [if_neg h2, if_neg (by omega)]
    · intro j
      rw [hl' j, histoSum_succ]
      by_cases h1 : histoSum t m ≤ j ∧ j < histoSum t m + t.len_histo m
      · rw [if_pos h1, if_pos (by omega)]
        exact (hbucket m (by omega) j (by rw [histoSum_succ]; omega) h1.1).symm
      · rw [if_neg h1, hl1 j]
        by_cases h2 : j < histoSum t m
        · rw [if_pos h2, if_pos (by omega)]
        · rw [if_neg h2, if_neg (by omega)]

/-- C4: for a table satisfying `dumpWF` (the grouping every finalized table
has), `from_table_bytes` applied to `dump`'s output reconstructs exactly the
decoder `from_table` builds, and the returned offset is the dump's length. -/
theorem C4_serialization_roundtrip (t : PerfectHashSymbolTable) (h : dumpWF t) :
    Decoder.from_table_bytes t.dump = some (t.dump.length, Decoder.from_table t) := by
  obtain ⟨syms', lens', hfold, hs', hl'⟩ := parseAll_spec t h 8 (le_refl 8)
  have hsum : histoSum t 8 = t.symbol_num := h.2.1
  have hlength : t.dump.length = 9 + dumpOffset t t.symbol_num := by
    rw [dump_eq, List.length_append, List.length_cons, sliceLen_length]
    have hb := dumpOffset_body_length t t.symbol_num 0
    rw [Nat.zero_add] at hb
    have h0 : dumpOffset t 0 = 0 := rfl
    omega
  have h0 : t.dump[0]? = some 0 := by rw [dump_eq]; rfl
  rw [Decoder.from_table_bytes, h0]
  simp only []
  rw [if_pos (Or.inl trivial), if_pos (by rw [hlength]; omega)]
  simp only [show ((0 : Nat) == 0) = true from rfl]
  rw [hfold]
  simp only []
  have hD : ({ symbols := syms', lens := lens' } : Decoder) = Decoder.from_table t := by
    rw [Decoder.from_table]
    congr 1
    · funext j
      rw [hs' j, hsum]
      rfl
    · funext j
      rw [hl' j, hsum]
      rfl
  rw [hD, hsum, hlength]

/-- A small finalized table for the C4 witness: one 1-byte and one 2-byte
learned symbol. -/
def dumpWitnessTable : PerfectHashSymbolTable :=
  ((PerfectHashSymbolTable.new.add (Symbol.from_str_bytes [97])).2.add
    (Symbol.from_str_bytes [98, 99])).2.finalize

theorem dumpWitnessTable_wf : dumpWF dumpWitnessTable := by
  unfold dumpWF
  decide

/-- C4 (witness): the round trip at the concrete two-symbol table. -/
theorem C4_serialization_roundtrip_witness :
    dumpWF dumpWitnessTable
    ∧ Decoder.from_table_bytes dumpWitnessTable.dump
        = some (dumpWitnessTable.dump.length, Decoder.from_table dumpWitnessTable) :=
  ⟨dumpWitnessTable_wf, C4_serialization_roundtrip dumpWitnessTable dumpWitnessTable_wf⟩

/-! ## Claim C2: the safe decoder `decode_with_tab` vs the fast decoder -/

/-- The UTF-8 bytes `String::push` appends for `b as char` when `b` is a
byte value (`U+0000..U+00FF`): one byte below `0x80`, two bytes
(`0xC2`/`0xC3` then a continuation byte) above. -/
def pushCharBytes (b : Nat) : List Nat :=
  if b < 128 then [b] else [192 ||| (b >>> 6), 128 ||| (b &&& 63)]

/-- The loop of `Decoder::decode_with_tab`, with explicit fuel (each
iteration advances `pos` by at least 1, so the callers' `buf.length + 1`
fuel never runs out; on exhaustion the model returns the empty suffix like
the reference semantics). `lossy` stands for `String::from_utf8_lossy`,
which `Symbol`'s `Display` applies to the symbol's `length()`-byte slice;
it is left abstract and the theorems below assume only its documented
behaviour on ASCII bytes. A failing `buf.get(pos).unwrap()` after a
trailing escape aborts (`none`). -/
def decodeWithTabGo (lossy : List Nat → List Nat) (t : PerfectHashSymbolTable)
    (buf : List Nat) : Nat → Nat → Option (List Nat)
  | 0, _ => some []
  | fuel + 1, pos =>
    if pos < buf.length then
      if buf.getD pos 0 = 255 then
        match buf[pos + 1]? with
        | none => none
        | some lit =>
          (decodeWithTabGo lossy t buf fuel (pos + 2)).map
            (fun rest => pushCharBytes lit ++ rest)
      else
        (decodeWithTabGo lossy t buf fuel (pos + 1)).map
          (fun rest =>
            lossy ((toBytesLE 8 (t.get_symbol (buf.getD pos 0)).num).take
              (t.get_symbol (buf.getD pos 0)).length) ++ rest)
    else some []

/-- `Decoder::decode_with_tab` (the output `String` as its bytes). -/
def decode_with_tab (lossy : List Nat → List Nat) (t : PerfectHashSymbolTable)
    (buf : List Nat) : Option (List Nat) :=
  decodeWithTabGo lossy t buf (buf.length + 1) 0

/-- Well-formed ASCII code stream for a table with `tlen` learned symbols:
every `0xFF` marker is followed by an in-bounds literal below `0x80`, and
every other byte is a code below `tlen`. Encoder output under a finalized
table has this shape whenever the learned symbols and escaped bytes are
ASCII. -/
def asciiStreamGo (tlen : Nat) (buf : List Nat) : Nat → Nat → Bool
  | 0, _ => true
  | fuel + 1, pos =>
    if pos < buf.length then
      if buf.getD pos 0 = 255 then
        decide (pos + 1 < buf.length) && decide (buf.getD (pos + 1) 0 < 128)
          && asciiStreamGo tlen buf fuel (pos + 2)
      else
        decide (buf.getD pos 0 < tlen) && asciiStreamGo tlen buf fuel (pos + 1)
    else true

def asciiStream (tlen : Nat) (buf : List Nat) : Bool :=
  asciiStreamGo tlen buf (buf.length + 1) 0

/-- The reference decode of the stream suffix starting at `pos`, with the
canonical fuel. -/
def simpleFrom (d : Decoder) (buf : List Nat) (pos : Nat) : List Nat :=
  simpleDecodeGo d buf (buf.length + 1) pos

theorem getD_take (l : List Nat) (n q : Nat) (h : q < n) :
    (l.take n).getD q 0 = l.getD q 0 := by
  by_cases hl : q < l.length
  · rw [List.getD_eq_getElem _ _ (by rw [List.length_take]; omega),
      List.getD_eq_getElem _ _ hl, List.getElem_take]
  · rw [List.getD_eq_default _ _ (by rw [List.length_take]; omega),
      List.getD_eq_default _ _ (by omega)]

theorem map_range_getD (f : Nat → Nat) (L : List Nat) (n : Nat)
    (hn : n = L.length) (h : ∀ q, q < L.length → f q = L.getD q 0) :
    (List.range n).map f = L := by
  apply List.ext_getElem
  · simpa using hn
  · intro i h1 h2
    have hi : i < n := by simpa using h1
    have hiL : i < L.length := h2
    simp only [List.getElem_map, List.getElem_range]
    rw [h i hiL, List.getD_eq_getElem _ _ hiL]

theorem simpleDecodeGo_fuel_succ (d : Decoder) (buf : List Nat) :
    ∀ fuel posIn, buf.length ≤ posIn + fuel →
      simpleDecodeGo d buf (fuel + 1) posIn = simpleDecodeGo d buf fuel posIn := by
  intro fuel
  induction fuel with
  | zero =>
    intro posIn h
    conv_lhs => rw [simpleDecodeGo]
    rw [if_neg (by omega)]
    rfl
  | succ fuel ih =>
    intro posIn h
    conv_lhs => rw [simpleDecodeGo]
    conv_rhs => rw [simpleDecodeGo]
    by_cases hpos : posIn < buf.length
    · rw [if_pos hpos, if_pos hpos]
      by_cases hesc : buf.getD posIn 0 = CODE_ESCAPE
      · rw [if_pos hesc, if_pos hesc, ih (posIn + 2) (by omega)]
      · rw [if_neg hesc, if_neg hesc, ih (posIn + 1) (by omega)]
    · rw [if_neg hpos, if_neg hpos]

theorem simpleDecodeGo_fuel_add (d : Decoder) (buf : List Nat) :
    ∀ k fuel posIn, buf.length ≤ posIn + fuel →
      simpleDecodeGo d buf (fuel + k) posIn = simpleDecodeGo d buf fuel posIn := by
  intro k
  induction k with
  | zero => intro fuel posIn _; rfl
  | succ k ih =>
    intro fuel posIn h
    rw [show fuel + (k + 1) = (fuel + k) + 1 from by omega,
      simpleDecodeGo_fuel_succ d buf (fuel + k) posIn (by omega), ih fuel posIn h]

theorem simpleFrom_end (d : Decoder) (buf : List Nat) (pos : Nat)
    (h : buf.length ≤ pos) : simpleFrom d buf pos = [] := by
  rw [simpleFrom, simpleDecodeGo, if_neg (by omega)]

theorem simpleFrom_step_esc (d : Decoder) (buf : List Nat) (pos : Nat)
    (hpos : pos < buf.length) (hesc : buf.getD pos 0 = 255) :
    simpleFrom d buf pos = buf.getD (pos + 1) 0 :: simpleFrom d buf (pos + 2) := by
  rw [simpleFrom, simpleDecodeGo, if_pos hpos, if_pos (by rw [hesc]; rfl)]
  congr 1
  rw [simpleFrom, ← simpleDecodeGo_fuel_succ d buf buf.length (pos + 2) (by omega)]

theorem simpleFrom_step_sym (d : Decoder) (buf : List Nat) (pos : Nat)
    (hpos : pos < buf.length) (hne : buf.getD pos 0 ≠ 255) :
    simpleFrom d buf pos = storeBytes d (buf.getD pos 0) ++ simpleFrom d buf (pos + 1) := by
  rw [simpleFrom, simpleDecodeGo, if_pos hpos, if_neg (by rw [show CODE_ESCAPE = 255 from rfl]; exact hne)]
  congr 1
  rw [simpleFrom, ← simpleDecodeGo_fuel_succ d buf buf.length (pos + 1) (by omega)]

theorem storeBytes_length (d : Decoder) (c : Nat) (h : d.lens c ≤ 8) :
    (storeBytes d c).length = d.lens c := by
  rw [storeBytes, List.length_take, toBytesLE_length]
  omega

theorem unaligned_store_spec (d : Decoder) (buf : List Nat) (pos posOut : Nat)
    (out : Nat → Nat) (hlen8 : d.lens (buf.getD pos 0) ≤ 8) :
    (unaligned_store d buf pos posOut out).1 = pos + 1
    ∧ (unaligned_store d buf pos posOut out).2.1
        = posOut + (storeBytes d (buf.getD pos 0)).length
    ∧ (∀ q, q < posOut → (unaligned_store d buf pos posOut out).2.2 q = out q)
    ∧ (∀ q, q < (storeBytes d (buf.getD pos 0)).length →
        (unaligned_store d buf pos posOut out).2.2 (posOut + q)
          = (storeBytes d (buf.getD pos 0)).getD q 0) := by
  have hsb := storeBytes_length d (buf.getD pos 0) hlen8
  refine ⟨rfl, by rw [hsb]; rfl, ?_, ?_⟩
  · intro q hq
    show (if posOut ≤ q ∧ q < posOut + 8 then _ else out q) = out q
    rw [if_neg (by omega)]
  · intro q hq
    show (if posOut ≤ posOut + q ∧ posOut + q < posOut + 8 then
        (toBytesLE 8 (d.symbols (buf.getD pos 0))).getD (posOut + q - posOut) 0
      else out (posOut + q)) = _
    rw [if_pos (by omega), show posOut + q - posOut = q from by omega, storeBytes,
      getD_take _ _ _ (by omega)]

theorem storeN_correct (d : Decoder) (buf : List Nat) (hlens : ∀ c, d.lens c ≤ 8) :
    ∀ n posIn posOut out,
      posIn + n ≤ buf.length →
      (∀ i, i < n → buf.getD (posIn + i) 0 ≠ 255) →
      ∃ E, simpleFrom d buf posIn = E ++ simpleFrom d buf (posIn + n)
        ∧ (storeN d buf n (posIn, posOut, out)).1 = posIn + n
        ∧ (storeN d buf n (posIn, posOut, out)).2.1 = posOut + E.length
        ∧ (∀ q, q < posOut → (storeN d buf n (posIn, posOut, out)).2.2 q = out q)
        ∧ (∀ q, q < E.length →
            (storeN d buf n (posIn, posOut, out)).2.2 (posOut + q) = E.getD q 0) := by
  intro n
  induction n with
  | zero =>
    intro posIn posOut out _ _
    refine ⟨[], by simp, rfl, rfl, fun q _ => rfl, fun q hq => by simp at hq⟩
  | succ n ih =>
    intro posIn posOut out hin hne
    have h0 : buf.getD (posIn + 0) 0 ≠ 255 := hne 0 (by omega)
    rw [Nat.add_zero] at h0
    obtain ⟨hst1, hst2, hstpres, hstcont⟩ :=
      unaligned_store_spec d buf posIn posOut out (hlens _)
    have hstore_eq : unaligned_store d buf posIn posOut out
        = (posIn + 1, posOut + d.lens (buf.getD posIn 0),
           fun q => if posOut ≤ q ∧ q < posOut + 8 then
             (toBytesLE 8 (d.symbols (buf.getD posIn 0))).getD (q - posOut) 0
           else out q) := rfl
    obtain ⟨E1, hsplit, hrec1, hrec2, hrecpres, hreccont⟩ := ih (posIn + 1)
      (posOut + d.lens (buf.getD posIn 0))
      (fun q => if posOut ≤ q ∧ q < posOut + 8 then
        (toBytesLE 8 (d.symbols (buf.getD posIn 0))).getD (q - posOut) 0
      else out q)
      (by omega) (fun i hi => by
        have := hne (i + 1) (by omega)
        rwa [show posIn + (i + 1) = posIn + 1 + i from by omega] at this)
    have hsb := storeBytes_length d (buf.getD posIn 0) (hlens _)
    have h8 : d.lens (buf.getD posIn 0) ≤ 8 := hlens _
    refine ⟨storeBytes d (buf.getD posIn 0) ++ E1, ?_, ?_, ?_, ?_, ?_⟩
    · rw [simpleFrom_step_sym d buf posIn (by omega) h0, hsplit,
        show posIn + 1 + n = posIn + (n + 1) from by omega, List.append_assoc]
    · show (storeN d buf n (unaligned_store d buf posIn posOut out)).1 = _
      rw [hstore_eq, hrec1]
      omega
    · show (storeN d buf n (unaligned_store d buf posIn posOut out)).2.1 = _
      rw [hstore_eq, hrec2, List.length_append, hsb]
      omega
    · intro q hq
      show (storeN d buf n (unaligned_store d buf posIn posOut out)).2.2 q = out q
      rw [hstore_eq, hrecpres q (by omega), if_neg (by omega)]
    · intro q hq
      show (storeN d buf n (unaligned_store d buf posIn posOut out)).2.2 (posOut + q)
          = (storeBytes d (buf.getD posIn 0) ++ E1).getD q 0
      rw [hstore_eq]
      by_cases hq1 : q < (storeBytes d (buf.getD posIn 0)).length
      · rw [hrecpres (posOut + q) (by omega), if_pos (by omega),
          show posOut + q - posOut = q from by omega,
          List.getD_append _ _ _ _ hq1, storeBytes, getD_take _ _ _ (by omega)]
      · have h2 := hreccont (q - (storeBytes d (buf.getD posIn 0)).length)
          (by rw [List.length_append] at hq; omega)
        rw [show posOut + d.lens (buf.getD posIn 0)
              + (q - (storeBytes d (buf.getD posIn 0)).length) = posOut + q from by
            rw [hsb] at hq1 ⊢; omega] at h2
        rw [h2, List.getD_append_right _ _ _ _ (by omega)]

theorem ctzFuel_pow_mul (k : Nat) : ∀ fuel v, k < fuel → v % 2 = 1 →
    ctzFuel fuel (2 ^ k * v) = k := by
  induction k with
  | zero =>
    intro fuel v hf hv
    cases fuel with
    | zero => omega
    | succ fuel =>
      rw [ctzFuel, pow_zero, one_mul, if_pos hv]
  | succ k ih =>
    intro fuel v hf hv
    cases fuel with
    | zero => omega
    | succ fuel =>
      have hmod : (2 ^ (k + 1) * v) % 2 = 0 := by
        rw [pow_succ, Nat.mul_comm (2 ^ k) 2, Nat.mul_assoc]
        exact Nat.mul_mod_right 2 _
      have hdiv : 2 ^ (k + 1) * v / 2 = 2 ^ k * v := by
        rw [pow_succ, Nat.mul_comm (2 ^ k) 2, Nat.mul_assoc]
        exact Nat.mul_div_cancel_left _ (by norm_num)
      rw [ctzFuel, if_neg (by omega), hdiv, ih fuel v (by omega) hv]
      omega

theorem mask_zero_no_escape (f : Nat → Nat) (hb : ∀ i, i < 4 → f i < 256)
    (hmask : escape_mask (f 0 + 256 * (f 1 + 256 * (f 2 + 256 * f 3))) = 0) :
    f 0 ≠ 255 ∧ f 1 ≠ 255 ∧ f 2 ≠ 255 ∧ f 3 ≠ 255 := by
  rw [escape_mask_bytes _ _ _ _ (hb 0 (by omega)) (hb 1 (by omega)) (hb 2 (by omega))
      (hb 3 (by omega)),
    escByte_spec (f 0) (hb 0 (by omega)), escByte_spec (f 1) (hb 1 (by omega)),
    escByte_spec (f 2) (hb 2 (by omega)), escByte_spec (f 3) (hb 3 (by omega))] at hmask
  split_ifs at hmask <;> omega

theorem ctz_mask_spec (f : Nat → Nat) (hb : ∀ i, i < 4 → f i < 256) :
    (f 0 = 255 →
      ctz32 (escape_mask (f 0 + 256 * (f 1 + 256 * (f 2 + 256 * f 3)))) >>> 3 = 0)
    ∧ (f 0 ≠ 255 → f 1 = 255 →
      ctz32 (escape_mask (f 0 + 256 * (f 1 + 256 * (f 2 + 256 * f 3)))) >>> 3 = 1)
    ∧ (f 0 ≠ 255 → f 1 ≠ 255 → f 2 = 255 →
      ctz32 (escape_mask (f 0 + 256 * (f 1 + 256 * (f 2 + 256 * f 3)))) >>> 3 = 2)
    ∧ (f 0 ≠ 255 → f 1 ≠ 255 → f 2 ≠ 255 → f 3 = 255 →
      ctz32 (escape_mask (f 0 + 256 * (f 1 + 256 * (f 2 + 256 * f 3)))) >>> 3 = 3) := by
  rw [escape_mask_bytes _ _ _ _ (hb 0 (by omega)) (hb 1 (by omega)) (hb 2 (by omega))
      (hb 3 (by omega)),
    escByte_spec (f 0) (hb 0 (by omega)), escByte_spec (f 1) (hb 1 (by omega)),
    escByte_spec (f 2) (hb 2 (by omega)), escByte_spec (f 3) (hb 3 (by omega))]
  refine ⟨fun h0 => ?_, fun h0 h1 => ?_, fun h0 h1 h2 => ?_, fun h0 h1 h2 h3 => ?_⟩
  · rw [if_pos h0]
    generalize ((if f 1 = 255 then 128 else 0)
      + 256 * ((if f 2 = 255 then 128 else 0) + 256 * (if f 3 = 255 then 128 else 0))) = X
    rw [show (128 : Nat) + 256 * X = 2 ^ 7 * (1 + 2 * X) from by ring, ctz32,
      ctzFuel_pow_mul 7 32 _ (by omega) (by omega)]
    decide
  · rw [if_neg h0, if_pos h1]
    generalize ((if f 2 = 255 then 128 else 0) + 256 * (if f 3 = 255 then 128 else 0)) = X
    rw [show (0 : Nat) + 256 * (128 + 256 * X) = 2 ^ 15 * (1 + 2 * X) from by ring, ctz32,
      ctzFuel_pow_mul 15 32 _ (by omega) (by omega)]
    decide
  · rw [if_neg h0, if_neg h1, if_pos h2]
    generalize (if f 3 = 255 then 128 else 0) = X
    rw [show (0 : Nat) + 256 * (0 + 256 * (128 + 256 * X)) = 2 ^ 23 * (1 + 2 * X) from by
        ring,
      ctz32, ctzFuel_pow_mul 23 32 _ (by omega) (by omega)]
    decide
  · rw [if_neg h0, if_neg h1, if_neg h2, if_pos h3]
    rw [show (0 : Nat) + 256 * (0 + 256 * (0 + 256 * 128)) = 2 ^ 31 * 1 from by norm_num,
      ctz32, ctzFuel_pow_mul 31 32 1 (by omega) (by omega)]
    decide

theorem bulk_load_u32_getD (buf : List Nat) (p : Nat) (h : p + 4 ≤ buf.length) :
    bulk_load_u32 ((buf.drop p).take 4)
      = buf.getD p 0 + 256 * (buf.getD (p + 1) 0
          + 256 * (buf.getD (p + 2) 0 + 256 * buf.getD (p + 3) 0)) := by
  rw [List.drop_eq_getElem_cons (by omega : p < buf.length),
    List.drop_eq_getElem_cons (by omega : p + 1 < buf.length),
    List.drop_eq_getElem_cons (by omega : p + 2 < buf.length),
    List.drop_eq_getElem_cons (by omega : p + 3 < buf.length)]
  simp only [bulk_load_u32, List.take_succ_cons, List.take_zero, packLE]
  rw [List.getD_eq_getElem buf 0 (by omega : p < buf.length),
    List.getD_eq_getElem buf 0 (by omega : p + 1 < buf.length),
    List.getD_eq_getElem buf 0 (by omega : p + 2 < buf.length),
    List.getD_eq_getElem buf 0 (by omega : p + 3 < buf.length)]
  ring

theorem decodeTailLoop_spec (d : Decoder) (buf : List Nat) (hlens : ∀ c, d.lens c ≤ 8) :
    ∀ fuel posIn posOut out,
      (decodeTailLoop d buf fuel posIn posOut out).2
          = posOut + (simpleDecodeGo d buf fuel posIn).length
      ∧ (∀ q, q < posOut → (decodeTailLoop d buf fuel posIn posOut out).1 q = out q)
      ∧ (∀ q, q < (simpleDecodeGo d buf fuel posIn).length →
          (decodeTailLoop d buf fuel posIn posOut out).1 (posOut + q)
            = (simpleDecodeGo d buf fuel posIn).getD q 0) := by
  intro fuel
  induction fuel with
  | zero =>
    intro posIn posOut out
    refine ⟨by simp [decodeTailLoop, simpleDecodeGo], fun q _ => rfl,
      fun q hq => by simp [simpleDecodeGo] at hq⟩
  | succ fuel ih =>
    intro posIn posOut out
    by_cases hpos : posIn < buf.length
    · by_cases hesc : buf.getD posIn 0 = 255
      · have htail : decodeTailLoop d buf (fuel + 1) posIn posOut out
            = decodeTailLoop d buf fuel (posIn + 2) (posOut + 1)
                (fun q => if q = posOut then buf.getD (posIn + 1) 0 else out q) := by
          rw [decodeTailLoop, if_pos hpos,
            if_neg (by rw [show CODE_ESCAPE = 255 from rfl]; omega)]
        have hsimp : simpleDecodeGo d buf (fuel + 1) posIn
            = buf.getD (posIn + 1) 0 :: simpleDecodeGo d buf fuel (posIn + 2) := by
          rw [simpleDecodeGo, if_pos hpos, if_pos (by rw [hesc]; rfl)]
        obtain ⟨ih1, ih2, ih3⟩ := ih (posIn + 2) (posOut + 1)
          (fun q => if q = posOut then buf.getD (posIn + 1) 0 else out q)
        rw [htail, hsimp]
        refine ⟨?_, ?_, ?_⟩
        · rw [ih1, List.length_cons]
          omega
        · intro q hq
          rw [ih2 q (by omega), if_neg (by omega)]
        · intro q hq
          rw [List.length_cons] at hq
          cases q with
          | zero =>
            have h2 := ih2 posOut (by omega)
            rw [if_pos rfl] at h2
            simpa using h2
          | succ q =>
            rw [show posOut + (q + 1) = (posOut + 1) + q from by omega, ih3 q (by omega),
              List.getD_cons_succ]
      · obtain ⟨hst1, hst2, hstpres, hstcont⟩ :=
          unaligned_store_spec d buf posIn posOut out (hlens _)
        have hstore_eq : unaligned_store d buf posIn posOut out
            = (posIn + 1, posOut + d.lens (buf.getD posIn 0),
               fun q => if posOut ≤ q ∧ q < posOut + 8 then
                 (toBytesLE 8 (d.symbols (buf.getD posIn 0))).getD (q - posOut) 0
               else out q) := rfl
        have htail : decodeTailLoop d buf (fuel + 1) posIn posOut out
            = decodeTailLoop d buf fuel (posIn + 1) (posOut + d.lens (buf.getD posIn 0))
                (fun q => if posOut ≤ q ∧ q < posOut + 8 then
                  (toBytesLE 8 (d.symbols (buf.getD posIn 0))).getD (q - posOut) 0
                else out q) := by
          rw [decodeTailLoop, if_pos hpos,
            if_pos (by rw [show CODE_ESCAPE = 255 from rfl]; exact hesc)]
          simp only [hstore_eq]
        have hsimp : simpleDecodeGo d buf (fuel + 1) posIn
            = storeBytes d (buf.getD posIn 0) ++ simpleDecodeGo d buf fuel (posIn + 1) := by
          rw [simpleDecodeGo, if_pos hpos,
            if_neg (by rw [show CODE_ESCAPE = 255 from rfl]; exact hesc)]
        obtain ⟨ih1, ih2, ih3⟩ := ih (posIn + 1) (posOut + d.lens (buf.getD posIn 0))
          (fun q => if posOut ≤ q ∧ q < posOut + 8 then
            (toBytesLE 8 (d.symbols (buf.getD posIn 0))).getD (q - posOut) 0
          else out q)
        have hsb := storeBytes_length d (buf.getD posIn 0) (hlens _)
        have h8 : d.lens (buf.getD posIn 0) ≤ 8 := hlens _
        rw [htail, hsimp]
        refine ⟨?_, ?_, ?_⟩
        · rw [ih1, List.length_append, hsb]
          omega
        · intro q hq
          rw [ih2 q (by omega), if_neg (by omega)]
        · intro q hq
          rw [List.length_append] at hq
          by_cases hq1 : q < (storeBytes d (buf.getD posIn 0)).length
          · rw [ih2 (posOut + q) (by omega), if_pos (by omega),
              show posOut + q - posOut = q from by omega,
              List.getD_append _ _ _ _ hq1, storeBytes,
              getD_take _ _ _ (by rw [hsb] at hq1; exact hq1)]
          · have h2 := ih3 (q - (storeBytes d (buf.getD posIn 0)).length) (by omega)
            rw [show posOut + d.lens (buf.getD posIn 0)
                  + (q - (storeBytes d (buf.getD posIn 0)).length) = posOut + q from by
                omega] at h2
            rw [h2, List.getD_append_right _ _ _ _ (by omega)]
    · have htail : decodeTailLoop d buf (fuel + 1) posIn posOut out = (out, posOut) := by
        rw [decodeTailLoop, if_neg hpos]
      have hsimp : simpleDecodeGo d buf (fuel + 1) posIn = [] := by
        rw [simpleDecodeGo, if_neg hpos]
      rw [htail, hsimp]
      exact ⟨rfl, fun q _ => rfl, fun q hq => by simp at hq⟩

theorem simpleDecodeGo_fuel_irrel (d : Decoder) (buf : List Nat) (f1 f2 pos : Nat)
    (h1 : buf.length ≤ pos + f1) (h2 : buf.length ≤ pos + f2) :
    simpleDecodeGo d buf f1 pos = simpleDecodeGo d buf f2 pos := by
  rcases Nat.le_total f1 f2 with h | h
  · obtain ⟨k, rfl⟩ := Nat.le.dest h
    exact (simpleDecodeGo_fuel_add d buf k f1 pos h1).symm
  · obtain ⟨k, rfl⟩ := Nat.le.dest h
    exact simpleDecodeGo_fuel_add d buf k f2 pos h2

theorem mask_zero_of_no_escape (f : Nat → Nat) (hb : ∀ i, i < 4 → f i < 256)
    (h0 : f 0 ≠ 255) (h1 : f 1 ≠ 255) (h2 : f 2 ≠ 255) (h3 : f 3 ≠ 255) :
    escape_mask (f 0 + 256 * (f 1 + 256 * (f 2 + 256 * f 3))) = 0 := by
  rw [escape_mask_bytes _ _ _ _ (hb 0 (by omega)) (hb 1 (by omega)) (hb 2 (by omega))
      (hb 3 (by omega)),
    escByte_spec (f 0) (hb 0 (by omega)), escByte_spec (f 1) (hb 1 (by omega)),
    escByte_spec (f 2) (hb 2 (by omega)), escByte_spec (f 3) (hb 3 (by omega)),
    if_neg h0, if_neg h1, if_neg h2, if_neg h3]

theorem fastEscapeStep (d : Decoder) (buf : List Nat) (hlens : ∀ c, d.lens c ≤ 8)
    (fuel : Nat)
    (ih : ∀ pI pO (o : Nat → Nat), buf.length ≤ pI + fuel →
      (decodeFastLoop d buf fuel pI pO o).2 = pO + (simpleFrom d buf pI).length
      ∧ (∀ q, q < pO → (decodeFastLoop d buf fuel pI pO o).1 q = o q)
      ∧ (∀ q, q < (simpleFrom d buf pI).length →
          (decodeFastLoop d buf fuel pI pO o).1 (pO + q) = (simpleFrom d buf pI).getD q 0))
    (posIn posOut : Nat) (out : Nat → Nat)
    (hfast : posIn + 4 < buf.length) (hfuel : buf.length ≤ posIn + (fuel + 1))
    (e : Nat) (he : e ≤ 3)
    (hctz : ctz32 (escape_mask (bulk_load_u32 ((buf.drop posIn).take 4))) >>> 3 = e)
    (hne : ∀ i, i < e → buf.getD (posIn + i) 0 ≠ 255)
    (hesc : buf.getD (posIn + e) 0 = 255)
    (hm : ¬ escape_mask (bulk_load_u32 ((buf.drop posIn).take 4)) = 0) :
    (decodeFastLoop d buf (fuel + 1) posIn posOut out).2
        = posOut + (simpleFrom d buf posIn).length
    ∧ (∀ q, q < posOut → (decodeFastLoop d buf (fuel + 1) posIn posOut out).1 q = out q)
    ∧ (∀ q, q < (simpleFrom d buf posIn).length →
        (decodeFastLoop d buf (fuel + 1) posIn posOut out).1 (posOut + q)
          = (simpleFrom d buf posIn).getD q 0) := by
  obtain ⟨E, hsplit, hs1, hs2, hspres, hscont⟩ :=
    storeN_correct d buf hlens e posIn posOut out (by omega) hne
  have hstep : decodeFastLoop d buf (fuel + 1) posIn posOut out
      = decodeFastLoop d buf fuel ((storeN d buf e (posIn, posOut, out)).1 + 2)
          ((storeN d buf e (posIn, posOut, out)).2.1 + 1)
          (fun q => if q = (storeN d buf e (posIn, posOut, out)).2.1 then
            buf.getD ((storeN d buf e (posIn, posOut, out)).1 + 1) 0
          else (storeN d buf e (posIn, posOut, out)).2.2 q) := by
    simp only [decodeFastLoop]
    rw [if_pos hfast, if_neg hm, hctz]
  rw [hs1, hs2] at hstep
  have hsplit2 : simpleFrom d buf (posIn + e)
      = buf.getD (posIn + e + 1) 0 :: simpleFrom d buf (posIn + e + 2) :=
    simpleFrom_step_esc d buf (posIn + e) (by omega) hesc
  obtain ⟨f1, f2, f3⟩ := ih (posIn + e + 2) (posOut + E.length + 1)
    (fun q => if q = posOut + E.length then buf.getD (posIn + e + 1) 0
      else (storeN d buf e (posIn, posOut, out)).2.2 q)
    (by omega)
  rw [hstep, hsplit, hsplit2]
  refine ⟨?_, ?_, ?_⟩
  · rw [f1, List.length_append, List.length_cons]
    omega
  · intro q hq
    rw [f2 q (by omega), if_neg (by omega), hspres q hq]
  · intro q hq
    rw [List.length_append, List.length_cons] at hq
    by_cases hq1 : q < E.length
    · rw [f2 (posOut + q) (by omega), if_neg (by omega), hscont q hq1,
        List.getD_append _ _ _ _ hq1]
    · by_cases hq2 : q = E.length
      · subst hq2
        rw [f2 (posOut + E.length) (by omega), if_pos rfl,
          List.getD_append_right _ _ _ _ (by omega), Nat.sub_self]
        rfl
      · have h3 := f3 (q - E.length - 1) (by omega)
        rw [show posOut + E.length + 1 + (q - E.length - 1) = posOut + q from by omega] at h3
        rw [h3, List.getD_append_right _ _ _ _ (by omega)]
        conv_rhs => rw [show q - E.length = (q - E.length - 1) + 1 from by omega]
        rw [List.getD_cons_succ]

theorem decodeFastLoop_spec (d : Decoder) (buf : List Nat) (hlens : ∀ c, d.lens c ≤ 8)
    (hbytes : ∀ b ∈ buf, b < 256) :
    ∀ fuel posIn posOut out,
      buf.length ≤ posIn + fuel →
      (decodeFastLoop d buf fuel posIn posOut out).2
          = posOut + (simpleFrom d buf posIn).length
      ∧ (∀ q, q < posOut → (decodeFastLoop d buf fuel posIn posOut out).1 q = out q)
      ∧ (∀ q, q < (simpleFrom d buf posIn).length →
          (decodeFastLoop d buf fuel posIn posOut out).1 (posOut + q)
            = (simpleFrom d buf posIn).getD q 0) := by
  have hbyte : ∀ j, buf.getD j 0 < 256 := by
    intro j
    by_cases hj : j < buf.length
    · rw [List.getD_eq_getElem buf 0 hj]
      exact hbytes _ (buf.getElem_mem hj)
    · rw [List.getD_eq_default buf 0 (by omega)]
      norm_num
  intro fuel
  induction fuel with
  | zero =>
    intro posIn posOut out hfuel
    rw [simpleFrom_end d buf posIn (by omega)]
    exact ⟨rfl, fun q _ => rfl, fun q hq => by simp at hq⟩
  | succ fuel ih =>
    intro posIn posOut out hfuel
    by_cases hfast : posIn + 4 < buf.length
    · by_cases hm : escape_mask (bulk_load_u32 ((buf.drop posIn).take 4)) = 0
      · -- no escape in the next four bytes: four stores
        have hm' : escape_mask ((fun i => buf.getD (posIn + i) 0) 0
            + 256 * ((fun i => buf.getD (posIn + i) 0) 1
              + 256 * ((fun i => buf.getD (posIn + i) 0) 2
                + 256 * (fun i => buf.getD (posIn + i) 0) 3))) = 0 := by
          have hm2 := hm
          rw [bulk_load_u32_getD buf posIn (by omega)] at hm2
          exact hm2
        obtain ⟨e0, e1, e2, e3⟩ := mask_zero_no_escape (fun i => buf.getD (posIn + i) 0)
          (fun i _ => hbyte _) hm'
        obtain ⟨E, hsplit, hs1, hs2, hspres, hscont⟩ :=
          storeN_correct d buf hlens 4 posIn posOut out (by omega)
            (fun i hi => by interval_cases i <;> [exact e0; exact e1; exact e2; exact e3])
        have hstep : decodeFastLoop d buf (fuel + 1) posIn posOut out
            = decodeFastLoop d buf fuel ((storeN d buf 4 (posIn, posOut, out)).1)
                ((storeN d buf 4 (posIn, posOut, out)).2.1)
                ((storeN d buf 4 (posIn, posOut, out)).2.2) := by
          simp only [decodeFastLoop]
          rw [if_pos hfast, if_pos hm]
        rw [hs1, hs2] at hstep
        obtain ⟨f1, f2, f3⟩ := ih (posIn + 4) (posOut + E.length)
          ((storeN d buf 4 (posIn, posOut, out)).2.2) (by omega)
        rw [hstep, hsplit]
        refine ⟨?_, ?_, ?_⟩
        · rw [f1, List.length_append]
          omega
        · intro q hq
          rw [f2 q (by omega), hspres q hq]
        · intro q hq
          rw [List.length_append] at hq
          by_cases hq1 : q < E.length
          · rw [f2 (posOut + q) (by omega), hscont q hq1, List.getD_append _ _ _ _ hq1]
          · have h3 := f3 (q - E.length) (by omega)
            rw [show posOut + E.length + (q - E.length) = posOut + q from by omega] at h3
            rw [h3, List.getD_append_right _ _ _ _ (by omega)]
      · -- an escape among the next four bytes
        obtain ⟨hc0, hc1, hc2, hc3⟩ := ctz_mask_spec (fun i => buf.getD (posIn + i) 0)
          (fun i _ => hbyte _)
        have hwrap : ∀ v, ctz32 (escape_mask ((fun i => buf.getD (posIn + i) 0) 0
            + 256 * ((fun i => buf.getD (posIn + i) 0) 1
              + 256 * ((fun i => buf.getD (posIn + i) 0) 2
                + 256 * (fun i => buf.getD (posIn + i) 0) 3)))) >>> 3 = v →
            ctz32 (escape_mask (bulk_load_u32 ((buf.drop posIn).take 4))) >>> 3 = v := by
          intro v hv
          rw [bulk_load_u32_getD buf posIn (by omega)]
          exact hv
        by_cases h0 : buf.getD (posIn + 0) 0 = 255
        · exact fastEscapeStep d buf hlens fuel ih posIn posOut out hfast hfuel 0 (by omega)
            (hwrap 0 (hc0 h0)) (fun i hi => by omega) h0 hm
        · by_cases h1 : buf.getD (posIn + 1) 0 = 255
          · exact fastEscapeStep d buf hlens fuel ih posIn posOut out hfast hfuel 1 (by omega)
              (hwrap 1 (hc1 h0 h1)) (fun i hi => by interval_cases i <;> exact h0) h1 hm
          · by_cases h2 : buf.getD (posIn + 2) 0 = 255
            · exact fastEscapeStep d buf hlens fuel ih posIn posOut out hfast hfuel 2
                (by omega) (hwrap 2 (hc2 h0 h1 h2))
                (fun i hi => by interval_cases i <;> [exact h0; exact h1]) h2 hm
            · by_cases h3 : buf.getD (posIn + 3) 0 = 255
              · exact fastEscapeStep d buf hlens fuel ih posIn posOut out hfast hfuel 3
                  (by omega) (hwrap 3 (hc3 h0 h1 h2 h3))
                  (fun i hi => by interval_cases i <;> [exact h0; exact h1; exact h2]) h3 hm
              · exfalso
                apply hm
                rw [bulk_load_u32_getD buf posIn (by omega)]
                exact mask_zero_of_no_escape (fun i => buf.getD (posIn + i) 0)
                  (fun i _ => hbyte _) h0 h1 h2 h3
    · have hstep : decodeFastLoop d buf (fuel + 1) posIn posOut out
          = decodeTailLoop d buf (fuel + 1) posIn posOut out := by
        simp only [decodeFastLoop]
        rw [if_neg hfast]
      obtain ⟨t1, t2, t3⟩ := decodeTailLoop_spec d buf hlens (fuel + 1) posIn posOut out
      have hconv : simpleDecodeGo d buf (fuel + 1) posIn = simpleFrom d buf posIn := by
        rw [simpleFrom]
        exact simpleDecodeGo_fuel_irrel d buf (fuel + 1) (buf.length + 1) posIn
          (by omega) (by omega)
      rw [hconv] at t1 t3
      rw [hstep]
      exact ⟨t1, t2, t3⟩

theorem decode_eq_simpleDecode (d : Decoder) (hlens : ∀ c, d.lens c ≤ 8)
    (buf : List Nat) (hbytes : ∀ b ∈ buf, b < 256) :
    Decoder.decode d buf = simpleDecode d buf := by
  obtain ⟨f1, f2, f3⟩ := decodeFastLoop_spec d buf hlens hbytes (buf.length + 1) 0 0
    (fun _ => 0) (by omega)
  have hsd : simpleDecode d buf = simpleFrom d buf 0 := rfl
  rw [hsd]
  show (List.range (decodeFastLoop d buf (buf.length + 1) 0 0 (fun _ => 0)).2).map
      (decodeFastLoop d buf (buf.length + 1) 0 0 (fun _ => 0)).1 = simpleFrom d buf 0
  apply map_range_getD
  · rw [f1]
    omega
  · intro q hq
    have h := f3 q hq
    rwa [Nat.zero_add] at h

theorem decodeWithTabGo_eq_simple (lossy : List Nat → List Nat)
    (hlossy : ∀ bs, (∀ b ∈ bs, b < 128) → lossy bs = bs)
    (t : PerfectHashSymbolTable)
    (hascii : ∀ c, c < t.len →
      ∀ b ∈ (toBytesLE 8 (t.get_symbol c).num).take (t.get_symbol c).length, b < 128)
    (buf : List Nat) :
    ∀ fuel pos, asciiStreamGo t.len buf fuel pos = true →
      decodeWithTabGo lossy t buf fuel pos
        = some (simpleDecodeGo (Decoder.from_table t) buf fuel pos) := by
  intro fuel
  induction fuel with
  | zero => intro pos _; rfl
  | succ fuel ih =>
    intro pos hstream
    by_cases hpos : pos < buf.length
    · by_cases hesc : buf.getD pos 0 = 255
      · rw [asciiStreamGo, if_pos hpos, if_pos hesc] at hstream
        simp only [Bool.and_eq_true, decide_eq_true_eq] at hstream
        obtain ⟨⟨hA, hB⟩, hrest⟩ := hstream
        rw [decodeWithTabGo, if_pos hpos, if_pos hesc, List.getElem?_eq_getElem hA]
        simp only [ih (pos + 2) hrest, Option.map_some']
        have hB' : buf[pos + 1] < 128 := by
          rw [List.getD_eq_getElem buf 0 hA] at hB
          exact hB
        rw [pushCharBytes, if_pos hB', List.singleton_append]
        conv_rhs => rw [simpleDecodeGo]
        rw [if_pos hpos, if_pos (by rw [hesc]; rfl), List.getD_eq_getElem buf 0 hA]
      · rw [asciiStreamGo, if_pos hpos, if_neg hesc] at hstream
        simp only [Bool.and_eq_true, decide_eq_true_eq] at hstream
        obtain ⟨hcode, hrest⟩ := hstream
        rw [decodeWithTabGo, if_pos hpos, if_neg hesc]
        simp only [ih (pos + 1) hrest, Option.map_some']
        rw [hlossy _ (hascii _ hcode)]
        conv_rhs => rw [simpleDecodeGo]
        rw [if_pos hpos, if_neg (by rw [show CODE_ESCAPE = 255 from rfl]; exact hesc)]
        have hsym : (Decoder.from_table t).symbols (buf.getD pos 0)
            = (t.get_symbol (buf.getD pos 0)).num := by
          show (if buf.getD pos 0 < t.len then _ else 0) = _
          rw [if_pos hcode]
        have hlen : (Decoder.from_table t).lens (buf.getD pos 0)
            = (t.get_symbol (buf.getD pos 0)).length := by
          show (if buf.getD pos 0 < t.len then _ else 0) = _
          rw [if_pos hcode]
        rw [storeBytes, hsym, hlen]
    · rw [decodeWithTabGo, if_neg hpos]
      conv_rhs => rw [simpleDecodeGo]
      rw [if_neg hpos]

/-- C2 (amended): for a table whose learned symbols have length at most 8
and ASCII bytes, and for any well-formed code stream of bytes whose escaped
literals are ASCII (`asciiStream` — the shape of every encoder output with
ASCII content), the safe byte-by-byte decoder and the fast word-parallel
decoder return the same bytes. `lossy` is `String::from_utf8_lossy`,
assumed only to be the identity on ASCII input, which is its documented
behaviour. On non-ASCII content the two decoders disagree (see the
counterexample): `decode_with_tab` re-encodes literal bytes ≥ 0x80 as
two-byte UTF-8 sequences while `decode` copies raw bytes. -/
theorem C2_decoders_agree_on_ascii (lossy : List Nat → List Nat)
    (hlossy : ∀ bs, (∀ b ∈ bs, b < 128) → lossy bs = bs)
    (t : PerfectHashSymbolTable)
    (hlens : ∀ c, c < t.len → (t.get_symbol c).length ≤ 8)
    (hascii : ∀ c, c < t.len →
      ∀ b ∈ (toBytesLE 8 (t.get_symbol c).num).take (t.get_symbol c).length, b < 128)
    (buf : List Nat) (hbytes : ∀ b ∈ buf, b < 256)
    (hstream : asciiStream t.len buf = true) :
    decode_with_tab lossy t buf = some (Decoder.decode (Decoder.from_table t) buf) := by
  have hlens' : ∀ c, (Decoder.from_table t).lens c ≤ 8 := by
    intro c
    show (if c < t.len then (t.get_symbol c).length else 0) ≤ 8
    by_cases hc : c < t.len
    · rw [if_pos hc]
      exact hlens c hc
    · rw [if_neg hc]
      omega
  rw [decode_eq_simpleDecode (Decoder.from_table t) hlens' buf hbytes]
  exact decodeWithTabGo_eq_simple lossy hlossy t hascii buf (buf.length + 1) 0 hstream

/-- C2 (counterexample): on the finalized fresh table the encoder turns the
1-byte string `[0xC8]` into the escape pair `[0xFF, 0xC8]`; the fast decoder
returns the byte `0xC8` back, but `decode_with_tab` pushes `0xC8 as char`,
appending its two-byte UTF-8 encoding `[0xC3, 0x88]`. The escape path never
invokes `from_utf8_lossy`, so the divergence holds for any `lossy`
(instantiated here with the identity). -/
theorem C2_nonascii_literal_counterexample :
    encode_str PerfectHashSymbolTable.new.finalize [200] = some [255, 200]
    ∧ decode_with_tab (fun bs => bs) PerfectHashSymbolTable.new.finalize [255, 200]
        = some [195, 136]
    ∧ Decoder.decode (Decoder.from_table PerfectHashSymbolTable.new.finalize) [255, 200]
        = [200]
    ∧ ([195, 136] : List Nat) ≠ [200] := by
  refine ⟨by decide, by decide, by decide, by decide⟩

/-- C2 (witness): agreement at the concrete two-symbol ASCII table and the
stream `[0, 0xFF, 0x42, 1]` (symbol `"a"`, escaped `"B"`, symbol `"bc"`). -/
theorem C2_decoders_agree_on_ascii_witness :
    decode_with_tab (fun bs => bs) dumpWitnessTable [0, 255, 66, 1]
      = some (Decoder.decode (Decoder.from_table dumpWitnessTable) [0, 255, 66, 1]) :=
  C2_decoders_agree_on_ascii (fun bs => bs) (fun bs _ => rfl) dumpWitnessTable
    (by decide) (by decide) [0, 255, 66, 1] (by decide) (by decide)
